import Mathlib

/-!
# Galaxy-Sim: a shallow embedding of `src/main.cpp`

The program is one translation unit: two pure helpers (`lerp`, `project`) and `main`,
which generates the star field, builds the warp grid and then runs the frame loop.

## Arithmetic model

* A C++ `float` is embedded as an element of a linearly ordered field `K` with a floor
  function, i.e. arithmetic is exact (no rounding, no NaN, no infinity).  At `K = ℚ`
  every definition below is executable; at `K = ℝ` the math-library functions can be
  instantiated with the real `sqrt`, `sin`, `cos`, ...
* The speed assignment of line 121 and the two state updates of the frame loop
  (`rotationMultiplier *= 1.2f`, `/= 1.2f` and `s.angle += ...`) are in addition given
  with an explicit rounding after every `float` operation (`orbitalSpeedWith`,
  `handleKeyWith`, `updateAngleWith`); the exact versions are the instances with the
  identity as rounding, the binary32 versions those with `roundBinary32` and, for the
  square root, the correctly rounded `sqrtRound`.  The results about them (monotonicity
  of the speed, round trip of the multiplier, accumulated angle, direction of the angle
  update) compare stored values, which differ between exact arithmetic and binary32;
  they are stated for both.
* The functions of `<cmath>` used by the program are not part of the repository; they
  are taken as a parameter `LibM K`.
* `std::mt19937` with the two distributions `U` (uniform on `[0,1)`) and `N` (standard
  normal) is embedded as the two sequences of values that successive calls `U(rng)` and
  `N(rng)` return, together with the number of values consumed so far (`Rng K`).  Every
  run of the program determines two such sequences; the statements about all runs are
  proved for all sequences (with the values of `U` in `[0,1)` where that matters).
* An 8-bit colour channel is a `Nat`; a conversion `float → sf::Uint8` truncates toward
  zero and keeps the low eight bits (`toUint8`).  C++ leaves the conversion of a value
  outside `0..255` undefined; keeping the low eight bits is what the usual targets do,
  and no statement below relies on it for a value outside `0..255`.
-/

namespace GalaxySim

/-! ## Constants (main.cpp, lines 7-15) -/

section Constants

variable {K : Type} [LinearOrderedField K]

/-- Source: `const int NUM_STARS = 88000;` -/
def NUM_STARS : Nat := 88000

/-- Source: `const float GALAXY_SIZE = 220.0f;` -/
def GALAXY_SIZE : K := 220.0

/-- Source: `const float CORE_SIZE = 55.0f;` -/
def CORE_SIZE : K := 55.0

/-- Source: `const float TIME_STEP = 0.008f;` -/
def TIME_STEP : K := 0.008

end Constants

/-! ## Data model -/

/-- An `sf::Color`: four 8-bit channels. -/
structure Color where
  r : Nat
  g : Nat
  b : Nat
  a : Nat
deriving DecidableEq, Repr

/-- Every channel of the colour is an integer in `0..255`. -/
def Color.valid (c : Color) : Prop :=
  c.r < 256 ∧ c.g < 256 ∧ c.b < 256 ∧ c.a < 256

instance (c : Color) : Decidable c.valid := by
  unfold Color.valid
  infer_instance

/-- Source: `struct Star` (main.cpp, lines 17-22). -/
structure Star (K : Type) where
  x : K
  y : K
  z : K
  radius : K
  angle : K
  speed : K
  color : Color
  isCore : Bool

/-- An `sf::Vector2f`. -/
structure Vector2f (K : Type) where
  x : K
  y : K

/-- An `sf::Vector3f`. -/
structure Vector3f (K : Type) where
  x : K
  y : K
  z : K

/-- An `sf::Vertex`: a screen position and a colour. -/
structure Vertex (K : Type) where
  position : Vector2f K
  color : Color

/-- Source: `struct Line { sf::Vector3f a, b; };` (main.cpp, line 125). -/
structure Line (K : Type) where
  a : Vector3f K
  b : Vector3f K

/-- The functions of `<cmath>` that `main.cpp` calls; their code is not in the repository.
`abs` is among them because the unqualified call of line 183 is resolved by the library
headers. -/
structure LibM (K : Type) where
  sqrt : K → K
  sin : K → K
  cos : K → K
  atan2 : K → K → K
  log : K → K
  pow : K → K → K
  exp : K → K
  abs : K → K

/-- The random source: `U` and `N` are the sequences of values returned by successive
calls `U(rng)` and `N(rng)`; `ui` and `ni` count the calls made so far. -/
structure Rng (K : Type) where
  U : Nat → K
  N : Nat → K
  ui : Nat
  ni : Nat

/-- One call `U(rng)`. -/
def Rng.nextU {K : Type} (g : Rng K) : K × Rng K :=
  (g.U g.ui, { g with ui := g.ui + 1 })

/-- One call `N(rng)`. -/
def Rng.nextN {K : Type} (g : Rng K) : K × Rng K :=
  (g.N g.ni, { g with ni := g.ni + 1 })

section Model

variable {K : Type} [LinearOrderedField K] [FloorRing K]

/-! ## Conversions and small helpers -/

/-- Conversion `float → int`: truncation toward zero. -/
def truncF (v : K) : Int := if 0 ≤ v then ⌊v⌋ else ⌈v⌉

/-- Conversion `float → sf::Uint8`: truncation toward zero, low eight bits kept. -/
def toUint8 (v : K) : Nat := (truncF v % 256).toNat

/-- Source: `std::clamp(v, lo, hi)`. -/
def clamp (v lo hi : K) : K := if v < lo then lo else if hi < v then hi else v

/-- Componentwise sum of two screen vectors (`operator+` of `sf::Vector2f`). -/
def Vector2f.add (p q : Vector2f K) : Vector2f K := ⟨p.x + q.x, p.y + q.y⟩

instance : Add (Vector2f K) := ⟨Vector2f.add⟩

/-! ## `lerp` and `project` (main.cpp, lines 24-35) -/

/-- The floating-point value `a.c + (b.c - a.c) * t` that `lerp` computes for one channel,
before it is narrowed to `sf::Uint8`; `b.c - a.c` is an `int` subtraction. -/
def lerpChannel (a b : Nat) (t : K) : K :=
  (a : K) + (((b : Int) - (a : Int) : Int) : K) * t

/-- Source: `sf::Color lerp(sf::Color a, sf::Color b, float t)`. -/
def lerp (a b : Color) (t : K) : Color :=
  ⟨toUint8 (lerpChannel a.r b.r t),
   toUint8 (lerpChannel a.g b.g t),
   toUint8 (lerpChannel a.b b.b t),
   toUint8 (lerpChannel a.a b.a t)⟩

/-- Source: `sf::Vector2f project(float x, float y, float z, float cx, float cy)`. -/
def project (x y z cx cy : K) : Vector2f K :=
  ⟨(x - z) * 0.866 + cx, y + (x + z) * 0.5 + cy⟩

/-! ## Star-field generation (main.cpp, lines 48-123) -/

/-- Source: `float speed = 3.5f / (sqrt(r) + 0.6f);` (line 121), with the roundings of
its evaluation explicit.  `rnd` is the rounding to `float`, applied to the two literals
and to the value stored in `speed`; `sqrtf` is the square root that is called; `rndE` is
the rounding of the sum and of the quotient, which are evaluated in the type `sqrt(r)`
has.  The unqualified call `sqrt(r)` on a `float` is `float sqrt(float)` where `<cmath>`
declares the overloads of `std::sqrt` in the global namespace, and then `rndE` is the
rounding to `float`; otherwise it is the C function `double sqrt(double)`, the `float`
operands are converted (exactly) to `double`, and `rndE` is the rounding to `double`. -/
def orbitalSpeedWith (rnd rndE sqrtf : K → K) (r : K) : K :=
  rnd (rndE (rnd 3.5 / rndE (sqrtf r + rnd 0.6)))

/-- Line 121 in exact arithmetic: `3.5 / (sqrt r + 0.6)` with the library `sqrt`. -/
def orbitalSpeed (m : LibM K) (r : K) : K := orbitalSpeedWith id id m.sqrt r

/-- Lines 121-122: the speed assignment and the stored `Star`. -/
def mkStar (m : LibM K) (x y z r theta : K) (col : Color) (core : Bool) : Star K :=
  ⟨x, y, z, r, theta, orbitalSpeed m r, col, core⟩

/-- The core branch (lines 55-69): returns `x, y, z, r, theta, col` and the random source. -/
def corePart (m : LibM K) (g : Rng K) : (K × K × K × K × K × Color) × Rng K :=
  let (n1, g) := g.nextN
  let x := n1 * CORE_SIZE * 1.8
  let (n2, g) := g.nextN
  let z := n2 * CORE_SIZE * 0.6
  let (n3, g) := g.nextN
  let y := n3 * 2.0
  let barAngle : K := 0.35
  let tx := x * m.cos barAngle - z * m.sin barAngle
  let tz := x * m.sin barAngle + z * m.cos barAngle
  let x := tx
  let z := tz
  let r := m.sqrt (x * x + z * z)
  let theta := m.atan2 z x
  let col := lerp ⟨255, 255, 245, 230⟩ ⟨255, 200, 160, 210⟩ (r / CORE_SIZE)
  ((x, y, z, r, theta, col), g)

/-- Source: `r = U(rng) * GALAXY_SIZE + 10.0f;` (line 72). -/
def diskRadius (u : K) : K := u * GALAXY_SIZE + 10.0

/-- The disk branch up to the dust value (lines 72-92): returns `r`, `theta`, `dust` and
the random source. -/
def diskShape (m : LibM K) (g : Rng K) : (K × K × K) × Rng K :=
  let (u1, g) := g.nextU
  let r := diskRadius u1
  let arms : Int := 4
  let (u2, g) := g.nextU
  let arm : K := ((truncF (u2 * (arms : K)) : Int) : K) * (2.0 * 3.14159 / (arms : K))
  let spiral := arm + 1.35 * m.log r
  let (n1, g) := g.nextN
  let turbulence := m.sin (r * 0.06 + spiral * 1.3) * 0.15 + n1 * 0.12 * (r / GALAXY_SIZE)
  let theta := spiral + turbulence
  let (u3, g) := g.nextU
  let (theta, g) :=
    if u3 < 0.08 then
      let (n2, g) := g.nextN
      (theta + n2 * 0.9, g)
    else (theta, g)
  let (n3, g) := g.nextN
  let phaseJitter := m.sin (r * 0.03 + n3 * 0.6) + m.sin (theta * 2.3 + r * 0.01)
  let dust := m.sin (theta * 3.7 + r * 0.04 + phaseJitter)
  ((r, theta, dust), g)

/-- Source: `std::clamp((dust + 1.0f) * 0.5f, 0.0f, 1.0f)` (line 93). -/
def dustStrength (dust : K) : K := clamp ((dust + 1.0) * 0.5) 0.0 1.0

/-- Source: the test `U(rng) > dustStrength * 0.9f + 0.1f` of line 95, with `u` the value
drawn; `true` means the candidate is discarded (`continue`). -/
def dustReject (ds u : K) : Bool := decide (u > ds * 0.9 + 0.1)

/-- The disk branch after the dust test (lines 98-118), for a retained candidate. -/
def diskFinish (m : LibM K) (r theta ds : K) (g : Rng K) :
    (K × K × K × K × K × Color) × Rng K :=
  let (n1, g) := g.nextN
  let x := m.cos theta * r + n1 * 0.6
  let (n2, g) := g.nextN
  let z := m.sin theta * r + n2 * 0.6
  let (n3, g) := g.nextN
  let y := clamp (n3 * (1.2 + r * 0.008)) (-8.0) 8.0
  let warm : Color := ⟨245, 240, 235, 255⟩
  let blue : Color := ⟨205, 215, 255, 255⟩
  let violet : Color := ⟨150, 120, 190, 255⟩
  let (u1, g) := g.nextU
  let t := u1 * 0.35
  let col := lerp warm blue t
  let dustMix := clamp (m.pow (r / GALAXY_SIZE) 1.2) 0.0 1.0
  let col := lerp col violet (dustMix * 0.75)
  let dustPurple : Color := ⟨140, 95, 190, 255⟩
  let col := lerp col dustPurple ((1.0 - ds) * 0.6)
  let col := { col with r := min col.r 200 }
  let col := { col with g := min col.g 190 }
  let col := { col with a := toUint8 (165 * ds) }
  ((x, y, z, r, theta, col), g)

/-- The disk branch (lines 72-118): `none` when the candidate is discarded by the dust
test (`continue`). -/
def diskPart (m : LibM K) (g : Rng K) : Option (K × K × K × K × K × Color) × Rng K :=
  let ((r, theta, dust), g) := diskShape m g
  let ds := dustStrength dust
  let (u, g) := g.nextU
  if dustReject ds u then (none, g)
  else
    let (v, g) := diskFinish m r theta ds g
    (some v, g)

/-- One iteration of the generation loop (lines 49-122): the star pushed, if any. -/
def genCandidate (m : LibM K) (g : Rng K) : Option (Star K) × Rng K :=
  let (rPick, g) := g.nextU
  if rPick < 0.22 then
    let ((x, y, z, r, theta, col), g) := corePart m g
    (some (mkStar m x y z r theta col true), g)
  else
    match diskPart m g with
    | (none, g) => (none, g)
    | (some (x, y, z, r, theta, col), g) => (some (mkStar m x y z r theta col false), g)

/-- The generation loop run for `n` iterations, appending to `stars`. -/
def genLoop (m : LibM K) : Nat → Rng K → List (Star K) → List (Star K) × Rng K
  | 0, g, stars => (stars, g)
  | n + 1, g, stars =>
    match genCandidate m g with
    | (none, g) => genLoop m n g stars
    | (some s, g) => genLoop m n g (stars ++ [s])

/-- Source: `for (int i = 0; i < NUM_STARS; ++i) { ... }` starting from an empty vector. -/
def generate (m : LibM K) (g : Rng K) : List (Star K) × Rng K :=
  genLoop m NUM_STARS g []

/-! ## Warp grid (main.cpp, lines 125-140) -/

/-- The key codes the event loop distinguishes (`sf::Keyboard::Key`). -/
inductive Key where
  | Add
  | Equal
  | Subtract
  | Hyphen
  | Other
deriving DecidableEq, Repr

/-- An `sf::Event` as the event loop sees it. -/
inductive Event where
  | Closed
  | KeyPressed (code : Key)
  | Other
deriving DecidableEq, Repr

/-- The mutable state of the frame loop. -/
structure Sim (K : Type) where
  isOpen : Bool
  rotationMultiplier : K
  stars : List (Star K)
  rng : Rng K

/-- The effect of one polled event on `rotationMultiplier` (lines 150-155), every
`float` operation and literal being followed by the rounding `rnd`. -/
def handleKeyWith (rnd : K → K) (rot : K) : Event → K
  | Event.KeyPressed Key.Add => rnd (rot * rnd 1.2)
  | Event.KeyPressed Key.Equal => rnd (rot * rnd 1.2)
  | Event.KeyPressed Key.Subtract => rnd (rot / rnd 1.2)
  | Event.KeyPressed Key.Hyphen => rnd (rot / rnd 1.2)
  | _ => rot

/-- The effect of one polled event on `rotationMultiplier` in exact arithmetic. -/
def handleKey (rot : K) (e : Event) : K := handleKeyWith id rot e

/-- The body of `while (window.pollEvent(e))` for one event (lines 147-155). -/
def handleEvent (st : Sim K) (e : Event) : Sim K :=
  let st := if e = Event.Closed then { st with isOpen := false } else st
  { st with rotationMultiplier := handleKey st.rotationMultiplier e }

/-- The event loop of one frame over the pending events. -/
def pollEvents (st : Sim K) (events : List Event) : Sim K :=
  events.foldl handleEvent st

/-- The angle update of line 175, with `n` the value returned by `N(rng)`, every `float`
operation and literal being followed by the rounding `rnd`. -/
def updateAngleWith (rnd : K → K) (s : Star K) (n rot : K) : Star K :=
  let angle := rnd (s.angle + rnd (rnd (rnd (s.speed + rnd (n * rnd 0.02)) * rnd TIME_STEP) * rot))
  { s with angle := angle }

/-- The angle update of line 175 in exact arithmetic. -/
def updateAngle (s : Star K) (n rot : K) : Star K := updateAngleWith id s n rot

/-- The body of `for (auto& s : stars)` (lines 175-194) with `n` the value returned by
`N(rng)`: the updated star, the vertex appended to `starsVA` and those appended to
`bloomVA`. -/
def starStep (m : LibM K) (s : Star K) (n rot cx cy : K) :
    Star K × Vertex K × List (Vertex K) :=
  let s := updateAngle s n rot
  let px := m.cos s.angle * s.radius
  let pz := m.sin s.angle * s.radius
  let p := project px s.y pz cx cy
  let c := s.color
  let c := { c with a := toUint8 ((c.a : K) * m.exp (-(m.abs s.y) * 0.25)) }
  let bloom : List (Vertex K) :=
    if s.isCore then
      let glow := { c with a := 12 }
      [⟨p + ⟨1, 0⟩, glow⟩, ⟨p + ⟨-1, 0⟩, glow⟩, ⟨p + ⟨0, 1⟩, glow⟩, ⟨p + ⟨0, -1⟩, glow⟩]
    else []
  (s, ⟨p, c⟩, bloom)

/-- The star loop of one frame (lines 171-195): the updated stars, `starsVA`, `bloomVA`
and the random source. -/
def starLoop (m : LibM K) (rot cx cy : K) :
    List (Star K) → Rng K → List (Star K) × List (Vertex K) × List (Vertex K) × Rng K
  | [], g => ([], [], [], g)
  | s :: rest, g =>
    let (n, g) := g.nextN
    let (s, v, bloom) := starStep m s n rot cx cy
    let (rest, vs, blooms, g) := starLoop m rot cx cy rest g
    (s :: rest, v :: vs, bloom ++ blooms, g)

/-- The grid vertices of one frame (lines 163-167). -/
def gridVertices (grid : List (Line K)) (cx cy : K) : List (Vertex K) :=
  grid.flatMap fun l =>
    [⟨project l.a.x l.a.y l.a.z cx cy, ⟨65, 65, 75, 70⟩⟩,
     ⟨project l.b.x l.b.y l.b.z cx cy, ⟨65, 65, 75, 70⟩⟩]

/-- One iteration of `while (window.isOpen())` (lines 145-199) for a window of size
`w × h` and the given pending events: the new state and the three vertex arrays drawn
(grid, bloom, stars). -/
def frame (m : LibM K) (grid : List (Line K)) (st : Sim K) (events : List Event)
    (w h : Nat) : Sim K × List (Vertex K) × List (Vertex K) × List (Vertex K) :=
  let st := pollEvents st events
  let cx : K := (w : K) / 2.0
  let cy : K := (h : K) / 2.0
  let gridVA := gridVertices grid cx cy
  let (stars, starsVA, bloomVA, g) := starLoop m st.rotationMultiplier cx cy st.stars st.rng
  ({ st with stars := stars, rng := g }, gridVA, bloomVA, starsVA)

/-- The star after `n` frames in which `N(rng)` returns `jitter i` in frame `i`, under a
constant `rotationMultiplier`. -/
def iterateStar (m : LibM K) (jitter : Nat → K) (rot cx cy : K) : Nat → Star K → Star K
  | 0, s => s
  | n + 1, s => (starStep m (iterateStar m jitter rot cx cy n s) (jitter n) rot cx cy).1

/-- The star after `n` applications of the angle update of line 175 with rounding `rnd`,
`N(rng)` returning `jitter i` in frame `i`, under a constant `rotationMultiplier`. -/
def iterateUpdate (rnd : K → K) (jitter : Nat → K) (rot : K) : Nat → Star K → Star K
  | 0, s => s
  | n + 1, s => updateAngleWith rnd (iterateUpdate rnd jitter rot n s) (jitter n) rot

/-- The values of `rotationMultiplier` the frame loop can reach: those obtained from the
initial `1.0f` by handling a finite sequence of events. -/
def Reachable (rot : K) : Prop :=
  ∃ events : List Event, events.foldl handleKey (1.0 : K) = rot

/-- The values of `rotationMultiplier` the frame loop can reach when every `float`
operation and literal is followed by the rounding `rnd`. -/
def ReachableWith (rnd : K → K) (rot : K) : Prop :=
  ∃ events : List Event, events.foldl (handleKeyWith rnd) (rnd 1.0) = rot

end Model

/-! ## Binary32 rounding

The result of a `float` operation is the exact result rounded to 24 significant bits, to
nearest, ties to even (IEEE-754 binary32 in the default rounding mode).  The exponent
range is not bounded here (no overflow to infinity, no gradual underflow), so
`roundBinary32` agrees with binary32 for results of magnitude between `2^-126` and
`2^128`. -/

/-- The integer nearest to `q`, the even one when `q` is halfway between two. -/
def roundNearestEven (q : ℚ) : ℤ :=
  if q - ⌊q⌋ < 1 / 2 then ⌊q⌋
  else if 1 / 2 < q - ⌊q⌋ then ⌊q⌋ + 1
  else if ⌊q⌋ % 2 = 0 then ⌊q⌋ else ⌊q⌋ + 1

/-- The `float` nearest to the exact value `q`: with `2^e ≤ |q| < 2^(e+1)`, the multiple
of `2^(e-23)` nearest to `q`, ties to the even multiple. -/
def roundBinary32 (q : ℚ) : ℚ :=
  if q = 0 then 0
  else (roundNearestEven (q / 2 ^ (Int.log 2 |q| - 23)) : ℚ) * 2 ^ (Int.log 2 |q| - 23)

/-- The value nearest to the exact value `q` in the binary floating-point format with `f`
fraction bits (`f + 1` significant bits), ties to even: with `2^e ≤ |q| < 2^(e+1)`, the
multiple of `2^(e-f)` nearest to `q`.  `roundBinary32` is `roundFrac 23`.  The exponent
range is not bounded. -/
def roundFrac (f : ℕ) (q : ℚ) : ℚ :=
  if q = 0 then 0
  else (roundNearestEven (q / 2 ^ (Int.log 2 |q| - (f : ℤ))) : ℚ)
    * 2 ^ (Int.log 2 |q| - (f : ℤ))

/-- The `double` nearest to the exact value `q` (IEEE-754 binary64: 53 significant bits,
round to nearest, ties to even). -/
def roundBinary64 (q : ℚ) : ℚ := roundFrac 52 q

/-- The natural number nearest to the square root of `t`, the even one when the root is
halfway between two.  With `k = ⌊√t⌋`, computed as `Nat.sqrt ⌊t⌋`, the root is below
`k + 1/2` exactly when `t < (k + 1/2)^2 = k^2 + k + 1/4`. -/
def sqrtNearest (t : ℚ) : ℕ :=
  if t < (Nat.sqrt ⌊t⌋₊ : ℚ) ^ 2 + Nat.sqrt ⌊t⌋₊ + 1 / 4 then Nat.sqrt ⌊t⌋₊
  else if t = (Nat.sqrt ⌊t⌋₊ : ℚ) ^ 2 + Nat.sqrt ⌊t⌋₊ + 1 / 4 ∧ Nat.sqrt ⌊t⌋₊ % 2 = 0
    then Nat.sqrt ⌊t⌋₊
  else Nat.sqrt ⌊t⌋₊ + 1

/-- The square root of the math library in the binary format with `f` fraction bits:
`sqrtf` on `float` for `f = 23`, `sqrt` on `double` for `f = 52`.  IEEE-754 requires the
square root to be correctly rounded, so the result is the value of the format nearest to
the real square root: with `2^h ≤ √q < 2^(h+1)`, where `h = ⌊log2 q / 2⌋`, the multiple
of `2^(h-f)` nearest to `√q`.  The root of `0` is `0`; a negative argument (for which the
library returns NaN) is given the value `0`, and no statement below takes the root of
one.  The exponent range is not bounded. -/
def sqrtRound (f : ℕ) (q : ℚ) : ℚ :=
  if q ≤ 0 then 0
  else (sqrtNearest (q / (2 ^ (Int.log 2 q / 2 - (f : ℤ))) ^ 2) : ℚ)
    * 2 ^ (Int.log 2 q / 2 - (f : ℤ))

section Statements

variable {K : Type} [LinearOrderedField K] [FloorRing K]

/-! ## Predicates used in the statements -/

/-- The value `lerp` computes for one channel lies between the two channel values, inside
`0..255`, and is narrowed to `sf::Uint8` without wrapping. -/
def channelInRange (a b : Nat) (t : K) : Prop :=
  ((min a b : Nat) : K) ≤ lerpChannel a b t ∧ lerpChannel a b t ≤ ((max a b : Nat) : K) ∧
    0 ≤ lerpChannel a b t ∧ lerpChannel a b t ≤ 255 ∧
    ((toUint8 (lerpChannel a b t) : Nat) : Int) = truncF (lerpChannel a b t)

/-! ## Auxiliary lemmas -/

theorem truncF_natCast (n : Nat) : truncF (n : K) = (n : Int) := by
  simp [truncF]

theorem toUint8_natCast (n : Nat) (h : n < 256) : toUint8 (n : K) = n := by
  unfold toUint8
  rw [truncF_natCast]
  omega

theorem lerpChannel_zero (a b : Nat) : lerpChannel a b (0 : K) = (a : K) := by
  simp [lerpChannel]

theorem lerpChannel_one (a b : Nat) : lerpChannel a b (1 : K) = (b : K) := by
  simp [lerpChannel]

theorem lerpChannel_between (a b : Nat) (t : K) (h0 : 0 ≤ t) (h1 : t ≤ 1) :
    ((min a b : Nat) : K) ≤ lerpChannel a b t ∧ lerpChannel a b t ≤ ((max a b : Nat) : K) := by
  unfold lerpChannel
  push_cast
  rcases le_total a b with h | h
  · have hab : (a : K) ≤ (b : K) := by exact_mod_cast h
    rw [min_eq_left hab, max_eq_right hab]
    constructor <;> nlinarith
  · have hab : (b : K) ≤ (a : K) := by exact_mod_cast h
    rw [min_eq_right hab, max_eq_left hab]
    constructor <;> nlinarith

theorem truncF_nonneg_of_nonneg (v : K) (h : 0 ≤ v) : 0 ≤ truncF v := by
  simp [truncF, h, Int.floor_nonneg]

theorem truncF_le_of_le_natCast (v : K) (n : Nat) (h0 : 0 ≤ v) (h : v ≤ n) :
    truncF v ≤ n := by
  simp only [truncF, h0, if_true]
  have := Int.floor_le v
  have h2 : ((⌊v⌋ : Int) : K) ≤ ((n : Int) : K) := by
    push_cast
    linarith
  exact_mod_cast h2

theorem toUint8_eq_truncF (v : K) (h0 : 0 ≤ v) (h : v ≤ 255) :
    ((toUint8 v : Nat) : Int) = truncF v := by
  have h1 := truncF_nonneg_of_nonneg v h0
  have h2 := truncF_le_of_le_natCast v 255 h0 (by exact_mod_cast h)
  unfold toUint8
  omega

/-! ## `lerp`: end points and range -/

/-- C1: for all RGBA colours `a` and `b` whose channels are integers in `0..255`,
`lerp a b 0` is `a` and `lerp a b 1` is `b`; equality of colours is equality of the four
channels `r`, `g`, `b` and `a`. -/
theorem lerp_endpoints (a b : Color) (ha : a.valid) (hb : b.valid) :
    lerp a b (0 : K) = a ∧ lerp a b (1 : K) = b := by
  obtain ⟨ar, ag, ab, aa⟩ := ha
  obtain ⟨br, bg, bb, ba⟩ := hb
  constructor
  · simp only [lerp, lerpChannel_zero]
    rw [toUint8_natCast _ ar, toUint8_natCast _ ag, toUint8_natCast _ ab,
      toUint8_natCast _ aa]
  · simp only [lerp, lerpChannel_one]
    rw [toUint8_natCast _ br, toUint8_natCast _ bg, toUint8_natCast _ bb,
      toUint8_natCast _ ba]

/-- Instance: the two colours of the core blend (line 69). -/
theorem lerp_endpoints_witness :
    Color.valid ⟨255, 255, 245, 230⟩ ∧ Color.valid ⟨255, 200, 160, 210⟩ ∧
      lerp ⟨255, 255, 245, 230⟩ ⟨255, 200, 160, 210⟩ (0 : ℚ) = ⟨255, 255, 245, 230⟩ ∧
      lerp ⟨255, 255, 245, 230⟩ ⟨255, 200, 160, 210⟩ (1 : ℚ) = ⟨255, 200, 160, 210⟩ :=
  ⟨by decide, by decide,
    lerp_endpoints ⟨255, 255, 245, 230⟩ ⟨255, 200, 160, 210⟩ (by decide) (by decide)⟩

theorem channelInRange_of_unit (a b : Nat) (t : K) (ha : a < 256) (hb : b < 256)
    (h0 : 0 ≤ t) (h1 : t ≤ 1) : channelInRange a b t := by
  obtain ⟨hlo, hhi⟩ := lerpChannel_between a b t h0 h1
  have hmin : (0 : K) ≤ ((min a b : Nat) : K) := Nat.cast_nonneg _
  have hmax : ((max a b : Nat) : K) ≤ 255 := by
    have : max a b ≤ 255 := by omega
    exact_mod_cast this
  have hv0 : 0 ≤ lerpChannel a b t := le_trans hmin hlo
  have hv1 : lerpChannel a b t ≤ 255 := le_trans hhi hmax
  exact ⟨hlo, hhi, hv0, hv1, toUint8_eq_truncF _ hv0 hv1⟩

/-! ## `project`: the screen centre is an additive offset -/

omit [FloorRing K] in
/-- C2: for every point `(x, y, z)` and every screen centre `(cx, cy)`,
`project x y z cx cy` is `project x y z 0 0` translated by `(cx, cy)`, with
`screenX = (x - z) * 0.866 + cx` and `screenY = y + (x + z) * 0.5 + cy`. -/
theorem project_translate (x y z cx cy : K) :
    project x y z cx cy = project x y z 0 0 + ⟨cx, cy⟩ ∧
      (project x y z cx cy).x = (x - z) * 0.866 + cx ∧
      (project x y z cx cy).y = y + (x + z) * 0.5 + cy := by
  refine ⟨?_, rfl, rfl⟩
  show project x y z cx cy = Vector2f.add (project x y z 0 0) ⟨cx, cy⟩
  simp [project, Vector2f.add]

/-! ## Key handling -/

omit [FloorRing K] in
theorem handleKey_mul_div (rot : K) : rot * 1.2 / 1.2 = rot := by
  have h : (1.2 : K) ≠ 0 := by norm_num
  field_simp

omit [FloorRing K] in
theorem increase_then_decrease_exact (st : Sim K) :
    (∀ inc dec : Key, (inc = Key.Add ∨ inc = Key.Equal) →
      (dec = Key.Subtract ∨ dec = Key.Hyphen) →
      (pollEvents st [Event.KeyPressed inc, Event.KeyPressed dec]).rotationMultiplier
        = st.rotationMultiplier) ∧
    (handleEvent st (Event.KeyPressed Key.Other)).rotationMultiplier = st.rotationMultiplier ∧
    (handleEvent st Event.Other).rotationMultiplier = st.rotationMultiplier ∧
    (handleEvent st Event.Closed).rotationMultiplier = st.rotationMultiplier := by
  refine ⟨?_, ?_, ?_, ?_⟩
  · intro inc dec hi hd
    rcases hi with rfl | rfl <;> rcases hd with rfl | rfl <;>
      simp [pollEvents, handleEvent, handleKey, handleKeyWith, handleKey_mul_div]
  · simp [handleEvent, handleKey, handleKeyWith]
  · simp [handleEvent, handleKey, handleKeyWith]
  · simp [handleEvent, handleKey, handleKeyWith]

/-! ## The per-frame angle update -/

theorem starStep_fields (m : LibM K) (s : Star K) (n rot cx cy : K) :
    (starStep m s n rot cx cy).1 = updateAngle s n rot := rfl

omit [FloorRing K] in
theorem updateAngle_angle (s : Star K) (n rot : K) :
    (updateAngle s n rot).angle = s.angle + (s.speed + n * 0.02) * TIME_STEP * rot := rfl

theorem iterateStar_speed (m : LibM K) (jitter : Nat → K) (rot cx cy : K) (s : Star K)
    (n : Nat) : (iterateStar m jitter rot cx cy n s).speed = s.speed := by
  induction n with
  | zero => rfl
  | succ k ih => simpa [iterateStar, starStep_fields, updateAngle, updateAngleWith] using ih

theorem angle_after_frames_exact (m : LibM K) (s : Star K) (cx cy : K) (n : Nat) :
    (iterateStar m (fun _ => 0) 1 cx cy n s).angle = s.angle + (n : K) * s.speed * TIME_STEP ∧
      (iterateStar m (fun _ => 0) 1 cx cy n s).speed = s.speed := by
  refine ⟨?_, iterateStar_speed m _ 1 cx cy s n⟩
  induction n with
  | zero => simp [iterateStar]
  | succ k ih =>
    have hs := iterateStar_speed m (fun _ => (0 : K)) 1 cx cy s k
    simp only [iterateStar, starStep_fields, updateAngle_angle]
    rw [ih, hs]
    push_cast
    ring

/-! ## Dust rejection -/

omit [FloorRing K] in
theorem clamp_unit (v : K) : 0 ≤ clamp v 0 1 ∧ clamp v 0 1 ≤ 1 := by
  unfold clamp
  split_ifs with h1 h2
  · exact ⟨le_refl _, zero_le_one⟩
  · exact ⟨zero_le_one, le_refl _⟩
  · exact ⟨not_lt.mp h1, not_lt.mp h2⟩

omit [FloorRing K] in
theorem dustStrength_unit (dust : K) : 0 ≤ dustStrength dust ∧ dustStrength dust ≤ 1 := by
  have h0 : (0.0 : K) = 0 := by norm_num
  have h1 : (1.0 : K) = 1 := by norm_num
  unfold dustStrength
  rw [h0, h1]
  exact clamp_unit _

omit [FloorRing K] in
theorem dustStrength_eq (dust : K) : dustStrength dust = clamp ((dust + 1) / 2) 0 1 := by
  unfold dustStrength
  congr 1 <;> norm_num
  ring

omit [FloorRing K] in
theorem dustReject_false_of_le (ds u : K) (h0 : 0 ≤ ds) (hu : u ≤ 0.1) :
    dustReject ds u = false := by
  have h : ¬ (u > ds * 0.9 + 0.1) := by
    have : (0 : K) ≤ ds * 0.9 := mul_nonneg h0 (by norm_num)
    intro hgt
    linarith
  simp [dustReject, h]

theorem diskPart_none_iff (m : LibM K) (g : Rng K) :
    (diskPart m g).1 = none ↔
      dustReject (dustStrength (diskShape m g).1.2.2) ((diskShape m g).2.nextU).1 = true := by
  unfold diskPart
  cases h : dustReject (dustStrength (diskShape m g).1.2.2) ((diskShape m g).2.nextU).1 <;>
    simp [h]

/-- C4: a disk candidate with dust value `dust` and uniform draw `u` is discarded exactly
when `u > dustStrength * 0.9 + 0.1`, where `dustStrength = clamp ((dust + 1) / 2) 0 1`.
Hence: with `dustStrength = 1` and `u = 0` the candidate is retained; with
`dustStrength = 0` and `u = 1` it is rejected, the threshold at `dustStrength = 0` being
`u > 0.1`; and for every `dustStrength` in `[0,1]` (every value `dustStrength` takes) a
candidate with `u ≤ 0.1` is retained. -/
theorem dust_rejection :
    (∀ (m : LibM K) (g : Rng K),
      (diskPart m g).1 = none ↔
        ((diskShape m g).2.nextU).1 >
          clamp (((diskShape m g).1.2.2 + 1) / 2) 0 1 * 0.9 + 0.1) ∧
    dustReject (1 : K) 0 = false ∧
    dustReject (0 : K) 1 = true ∧
    (∀ u : K, dustReject 0 u = true ↔ u > 0.1) ∧
    (∀ ds u : K, 0 ≤ ds → ds ≤ 1 → u ≤ 0.1 → dustReject ds u = false) ∧
    (∀ dust : K, 0 ≤ dustStrength dust ∧ dustStrength dust ≤ 1) := by
  refine ⟨?_, ?_, ?_, ?_, ?_, dustStrength_unit⟩
  · intro m g
    rw [diskPart_none_iff, dustStrength_eq]
    simp [dustReject]
  · exact dustReject_false_of_le 1 0 zero_le_one (by norm_num)
  · simp only [dustReject, decide_eq_true_eq]
    norm_num
  · intro u
    simp [dustReject]
  · intro ds u h0 _ hu
    exact dustReject_false_of_le ds u h0 hu

/-- Instance: `dustStrength = 0.5` and `u = 0.1`. -/
theorem dust_rejection_witness : dustReject (1 / 2 : ℚ) (1 / 10) = false :=
  (dust_rejection (K := ℚ)).2.2.2.2.1 (1 / 2) (1 / 10) (by norm_num) (by norm_num)
    (by norm_num)

/-! ## Orbital speed -/

omit [FloorRing K] in
theorem orbitalSpeed_eq (m : LibM K) (r : K) :
    orbitalSpeed m r = 3.5 / (m.sqrt r + 0.6) := rfl

omit [FloorRing K] in
theorem orbitalSpeed_strict_exact (m : LibM K)
    (hnn : ∀ v : K, 0 ≤ v → 0 ≤ m.sqrt v)
    (hmono : ∀ a b : K, 0 ≤ a → a < b → m.sqrt a < m.sqrt b)
    (r1 r2 : K) (h1 : 0 < r1) (h12 : r1 < r2) :
    orbitalSpeed m r2 < orbitalSpeed m r1 := by
  rw [orbitalSpeed_eq, orbitalSpeed_eq]
  have hs1 : 0 ≤ m.sqrt r1 := hnn r1 h1.le
  have hs : m.sqrt r1 < m.sqrt r2 := hmono r1 r2 h1.le h12
  have hd1 : (0 : K) < m.sqrt r1 + 0.6 := by
    have : (0 : K) < 0.6 := by norm_num
    linarith
  have hd : m.sqrt r1 + 0.6 < m.sqrt r2 + 0.6 := by linarith
  exact div_lt_div_of_pos_left (by norm_num) hd1 hd

omit [FloorRing K] in
theorem orbitalSpeed_pos (m : LibM K) (r : K) (h : 0 ≤ m.sqrt r) : 0 < orbitalSpeed m r := by
  rw [orbitalSpeed_eq]
  have : (0 : K) < 0.6 := by norm_num
  exact div_pos (by norm_num) (by linarith)

omit [FloorRing K] in
theorem orbitalSpeedWith_antitone (rnd rndE sqrtf : K → K)
    (hrnd : ∀ a b : K, a ≤ b → rnd a ≤ rnd b) (hrndE : ∀ a b : K, a ≤ b → rndE a ≤ rndE b)
    (hpos : ∀ a : K, 0 < a → 0 < rndE a) (h35 : 0 ≤ rnd 3.5) (h06 : 0 < rnd 0.6)
    (r1 r2 : K) (h0 : 0 ≤ sqrtf r1) (hs : sqrtf r1 ≤ sqrtf r2) :
    orbitalSpeedWith rnd rndE sqrtf r2 ≤ orbitalSpeedWith rnd rndE sqrtf r1 := by
  unfold orbitalSpeedWith
  apply hrnd
  apply hrndE
  have h1 : 0 < rndE (sqrtf r1 + rnd 0.6) := hpos _ (by linarith)
  have h2 : rndE (sqrtf r1 + rnd 0.6) ≤ rndE (sqrtf r2 + rnd 0.6) := hrndE _ _ (by linarith)
  exact div_le_div_of_nonneg_left h35 h1 h2

omit [FloorRing K] in
theorem orbitalSpeedWith_pos (rnd rndE sqrtf : K → K)
    (hrnd : ∀ a : K, 0 < a → 0 < rnd a) (hrndE : ∀ a : K, 0 < a → 0 < rndE a)
    (r : K) (h0 : 0 ≤ sqrtf r) : 0 < orbitalSpeedWith rnd rndE sqrtf r := by
  unfold orbitalSpeedWith
  apply hrnd
  apply hrndE
  have h06 : 0 < rnd 0.6 := hrnd _ (by norm_num)
  exact div_pos (hrnd _ (by norm_num)) (hrndE _ (by linarith))

/-! ## Radius bounds of the generated particles -/

theorem corePart_rng (m : LibM K) (g : Rng K) :
    (corePart m g).2.U = g.U ∧ (corePart m g).2.N = g.N := by
  simp [corePart, Rng.nextN]

theorem diskShape_rng (m : LibM K) (g : Rng K) :
    (diskShape m g).2.U = g.U ∧ (diskShape m g).2.N = g.N := by
  unfold diskShape
  simp only [Rng.nextN, Rng.nextU]
  split_ifs <;> simp

theorem diskShape_radius (m : LibM K) (g : Rng K) :
    (diskShape m g).1.1 = diskRadius (g.U g.ui) := by
  unfold diskShape
  simp only [Rng.nextN, Rng.nextU]

theorem diskFinish_rng (m : LibM K) (r theta ds : K) (g : Rng K) :
    (diskFinish m r theta ds g).2.U = g.U ∧ (diskFinish m r theta ds g).2.N = g.N := by
  simp [diskFinish, Rng.nextN, Rng.nextU]

theorem diskFinish_radius (m : LibM K) (r theta ds : K) (g : Rng K) :
    (diskFinish m r theta ds g).1.2.2.2.1 = r := by
  simp [diskFinish, Rng.nextN, Rng.nextU]

theorem diskPart_rng (m : LibM K) (g : Rng K) :
    (diskPart m g).2.U = g.U ∧ (diskPart m g).2.N = g.N := by
  have h1 := diskShape_rng m g
  unfold diskPart
  simp only []
  split_ifs
  · simpa [Rng.nextU] using h1
  · have h2 := diskFinish_rng m (diskShape m g).1.1 (diskShape m g).1.2.1
      (dustStrength (diskShape m g).1.2.2) ((diskShape m g).2.nextU).2
    simp only [Rng.nextU] at h2 ⊢
    exact ⟨h2.1.trans h1.1, h2.2.trans h1.2⟩

theorem diskPart_radius (m : LibM K) (g : Rng K) (v : K × K × K × K × K × Color)
    (h : (diskPart m g).1 = some v) : v.2.2.2.1 = diskRadius (g.U g.ui) := by
  unfold diskPart at h
  by_cases hr : dustReject (dustStrength (diskShape m g).1.2.2) ((diskShape m g).2.nextU).1 = true
  · simp [hr] at h
  · simp only [hr, Bool.false_eq_true, if_false, Option.some.injEq] at h
    rw [← h, diskFinish_radius, diskShape_radius]

theorem corePart_radius_nonneg (m : LibM K) (hs : ∀ v : K, 0 ≤ v → 0 ≤ m.sqrt v)
    (g : Rng K) : 0 ≤ (corePart m g).1.2.2.2.1 := by
  simp only [corePart, Rng.nextN]
  exact hs _ (add_nonneg (mul_self_nonneg _) (mul_self_nonneg _))

omit [FloorRing K] in
theorem diskRadius_bounds (u : K) (h0 : 0 ≤ u) (h1 : u < 1) :
    10 ≤ diskRadius u ∧ diskRadius u < GALAXY_SIZE + 10 := by
  unfold diskRadius GALAXY_SIZE
  constructor
  · norm_num
    positivity
  · norm_num
    linarith

theorem genCandidate_rng (m : LibM K) (g : Rng K) :
    (genCandidate m g).2.U = g.U ∧ (genCandidate m g).2.N = g.N := by
  unfold genCandidate
  simp only [Rng.nextU]
  split_ifs
  · exact corePart_rng m _
  · have h := diskPart_rng m { g with ui := g.ui + 1 }
    rcases hdp : diskPart m { g with ui := g.ui + 1 } with ⟨_ | v, g2⟩
    · rw [hdp] at h
      simpa using h
    · rw [hdp] at h
      simpa using h

theorem genCandidate_radius (m : LibM K) (g : Rng K)
    (hU : ∀ i, 0 ≤ g.U i ∧ g.U i < 1) (hs : ∀ v : K, 0 ≤ v → 0 ≤ m.sqrt v)
    (s : Star K) (h : (genCandidate m g).1 = some s) :
    (s.isCore = false → 10 ≤ s.radius ∧ s.radius < GALAXY_SIZE + 10) ∧
      (s.isCore = true → 0 ≤ s.radius) := by
  unfold genCandidate at h
  simp only [Rng.nextU] at h
  split_ifs at h
  · simp only [Option.some.injEq] at h
    subst h
    refine ⟨by simp [mkStar], fun _ => ?_⟩
    exact corePart_radius_nonneg m hs _
  · rcases hdp : diskPart m { g with ui := g.ui + 1 } with ⟨_ | v, g2⟩
    · rw [hdp] at h
      simp at h
    · rw [hdp] at h
      simp only [Option.some.injEq] at h
      subst h
      have hr := diskPart_radius m { g with ui := g.ui + 1 } v (by rw [hdp])
      refine ⟨fun _ => ?_, by simp [mkStar]⟩
      show 10 ≤ v.2.2.2.1 ∧ v.2.2.2.1 < GALAXY_SIZE + 10
      rw [hr]
      exact diskRadius_bounds _ (hU _).1 (hU _).2

theorem genLoop_radius (m : LibM K) (hs : ∀ v : K, 0 ≤ v → 0 ≤ m.sqrt v) (n : Nat) :
    ∀ (g : Rng K) (stars : List (Star K)), (∀ i, 0 ≤ g.U i ∧ g.U i < 1) →
      (∀ s ∈ stars, (s.isCore = false → 10 ≤ s.radius ∧ s.radius < GALAXY_SIZE + 10) ∧
        (s.isCore = true → 0 ≤ s.radius)) →
      ∀ s ∈ (genLoop m n g stars).1,
        (s.isCore = false → 10 ≤ s.radius ∧ s.radius < GALAXY_SIZE + 10) ∧
          (s.isCore = true → 0 ≤ s.radius) := by
  induction n with
  | zero =>
    intro g stars _ hstars s hmem
    exact hstars s hmem
  | succ k ih =>
    intro g stars hU hstars s hmem
    unfold genLoop at hmem
    have hrng := genCandidate_rng m g
    have hrad := genCandidate_radius m g hU hs
    rcases hc : genCandidate m g with ⟨_ | c, g2⟩
    · rw [hc] at hmem hrng
      simp only at hmem hrng
      exact ih g2 stars (by rw [hrng.1]; exact hU) hstars s hmem
    · rw [hc] at hmem hrng hrad
      simp only at hmem hrng hrad
      refine ih g2 (stars ++ [c]) (by rw [hrng.1]; exact hU) ?_ s hmem
      intro t ht
      rcases List.mem_append.mp ht with ht | ht
      · exact hstars t ht
      · rw [List.mem_singleton.mp ht]
        exact hrad c rfl

theorem genLoop_subset (m : LibM K) (n : Nat) :
    ∀ (g : Rng K) (stars : List (Star K)), ∀ s ∈ stars, s ∈ (genLoop m n g stars).1 := by
  induction n with
  | zero =>
    intro g stars s hmem
    exact hmem
  | succ k ih =>
    intro g stars s hmem
    unfold genLoop
    rcases hc : genCandidate m g with ⟨_ | c, g2⟩
    · exact ih g2 stars s hmem
    · exact ih g2 (stars ++ [c]) s (List.mem_append.mpr (Or.inl hmem))

/-- C7: every disk particle of the generated population has
`10 ≤ radius < GALAXY_SIZE + 10`, whatever values in `[0,1)` the uniform draws take, and
every core particle has `radius ≥ 0` (the library square root being non-negative). -/
theorem generate_radius_bounds (m : LibM K) (g : Rng K)
    (hU : ∀ i, 0 ≤ g.U i ∧ g.U i < 1) (hs : ∀ v : K, 0 ≤ v → 0 ≤ m.sqrt v) :
    ∀ s ∈ (generate m g).1,
      (s.isCore = false → 10 ≤ s.radius ∧ s.radius < GALAXY_SIZE + 10) ∧
        (s.isCore = true → 0 ≤ s.radius) :=
  genLoop_radius m hs NUM_STARS g [] hU (by simp)

theorem genLoop_first (m : LibM K) (n : Nat) (g : Rng K) (stars : List (Star K))
    (s : Star K) (h : (genCandidate m g).1 = some s) :
    s ∈ (genLoop m (n + 1) g stars).1 := by
  unfold genLoop
  rcases hc : genCandidate m g with ⟨_ | c, g2⟩
  · rw [hc] at h
    simp at h
  · rw [hc] at h
    simp only [Option.some.injEq] at h
    subst h
    exact genLoop_subset m n g2 (stars ++ [c]) c (by simp)

theorem generate_first (m : LibM K) (g : Rng K) (s : Star K)
    (h : (genCandidate m g).1 = some s) : s ∈ (generate m g).1 :=
  genLoop_first m 87999 g [] s h

theorem diskShape_ui (m : LibM K) (g : Rng K) : (diskShape m g).2.ui = g.ui + 3 := by
  unfold diskShape
  simp only [Rng.nextN, Rng.nextU]
  split_ifs <;> rfl

theorem genCandidate_disk_retained (m : LibM K) (g : Rng K) (h1 : ¬ g.U g.ui < 0.22)
    (h2 : g.U (g.ui + 4) ≤ 0.1) :
    ∃ s, (genCandidate m g).1 = some s ∧ s.isCore = false := by
  have hU := (diskShape_rng m { g with ui := g.ui + 1 }).1
  have hui := diskShape_ui m { g with ui := g.ui + 1 }
  have hrej : dustReject (dustStrength (diskShape m { g with ui := g.ui + 1 }).1.2.2)
      ((diskShape m { g with ui := g.ui + 1 }).2.nextU).1 = false := by
    apply dustReject_false_of_le _ _ (dustStrength_unit _).1
    simp only [Rng.nextU, hU, hui]
    exact h2
  have hne : (diskPart m { g with ui := g.ui + 1 }).1 ≠ none := by
    rw [Ne, diskPart_none_iff, hrej]
    simp
  unfold genCandidate
  simp only [Rng.nextU, h1, if_false]
  rcases hdp : diskPart m { g with ui := g.ui + 1 } with ⟨_ | v, g2⟩
  · rw [hdp] at hne
    exact absurd rfl hne
  · exact ⟨_, rfl, rfl⟩

/-! ## The per-frame update: what it changes -/

omit [FloorRing K] in
theorem handleKey_pos (rot : K) (e : Event) (h : 0 < rot) : 0 < handleKey rot e := by
  have h12 : (0 : K) < 1.2 := by norm_num
  unfold handleKey handleKeyWith
  simp only [id]
  split
  · exact mul_pos h h12
  · exact mul_pos h h12
  · exact div_pos h h12
  · exact div_pos h h12
  · exact h

omit [FloorRing K] in
theorem foldl_handleKey_pos (events : List Event) :
    ∀ rot : K, 0 < rot → 0 < events.foldl handleKey rot := by
  induction events with
  | nil => intro rot h; exact h
  | cons e rest ih => intro rot h; exact ih _ (handleKey_pos rot e h)

omit [FloorRing K] in
theorem reachable_pos (rot : K) (h : Reachable rot) : 0 < rot := by
  obtain ⟨events, rfl⟩ := h
  exact foldl_handleKey_pos events _ (by norm_num)

omit [FloorRing K] in
theorem handleKeyWith_nonneg (rnd : K → K) (hrnd : ∀ a : K, 0 ≤ a → 0 ≤ rnd a)
    (rot : K) (e : Event) (h : 0 ≤ rot) : 0 ≤ handleKeyWith rnd rot e := by
  have h12 : (0 : K) ≤ rnd 1.2 := hrnd _ (by norm_num)
  unfold handleKeyWith
  split
  · exact hrnd _ (mul_nonneg h h12)
  · exact hrnd _ (mul_nonneg h h12)
  · exact hrnd _ (div_nonneg h h12)
  · exact hrnd _ (div_nonneg h h12)
  · exact h

omit [FloorRing K] in
theorem foldl_handleKeyWith_nonneg (rnd : K → K) (hrnd : ∀ a : K, 0 ≤ a → 0 ≤ rnd a)
    (events : List Event) :
    ∀ rot : K, 0 ≤ rot → 0 ≤ events.foldl (handleKeyWith rnd) rot := by
  induction events with
  | nil => intro rot h; exact h
  | cons e rest ih => intro rot h; exact ih _ (handleKeyWith_nonneg rnd hrnd rot e h)

omit [FloorRing K] in
theorem reachableWith_nonneg (rnd : K → K) (hrnd : ∀ a : K, 0 ≤ a → 0 ≤ rnd a)
    (rot : K) (h : ReachableWith rnd rot) : 0 ≤ rot := by
  obtain ⟨events, rfl⟩ := h
  exact foldl_handleKeyWith_nonneg rnd hrnd events _ (hrnd _ (by norm_num))

omit [FloorRing K] in
theorem updateAngleWith_angle (rnd : K → K) (s : Star K) (n rot : K) :
    (updateAngleWith rnd s n rot).angle
      = rnd (s.angle + rnd (rnd (rnd (s.speed + rnd (n * rnd 0.02)) * rnd TIME_STEP) * rot)) :=
  rfl

omit [FloorRing K] in
theorem updateAngleWith_angle_le (rnd : K → K) (hmono : ∀ a b : K, a ≤ b → rnd a ≤ rnd b)
    (hrnd : ∀ a : K, 0 ≤ a → 0 ≤ rnd a) (s : Star K) (n rot : K)
    (hs : rnd s.angle = s.angle) (hrot : 0 ≤ rot)
    (hj : 0 ≤ rnd (s.speed + rnd (n * rnd 0.02))) :
    s.angle ≤ (updateAngleWith rnd s n rot).angle := by
  rw [updateAngleWith_angle]
  have hts : 0 ≤ rnd (TIME_STEP : K) := hrnd _ (by norm_num [TIME_STEP])
  have hinc : 0 ≤ rnd (rnd (rnd (s.speed + rnd (n * rnd 0.02)) * rnd TIME_STEP) * rot) :=
    hrnd _ (mul_nonneg (hrnd _ (mul_nonneg hj hts)) hrot)
  calc s.angle = rnd s.angle := hs.symm
    _ ≤ _ := hmono _ _ (by linarith)

omit [FloorRing K] in
theorem jitter_sum_nonneg (rnd : K → K) (hrnd : ∀ a : K, 0 ≤ a → 0 ≤ rnd a)
    (speed n : K) (hspeed : 0 ≤ speed) (hn : 0 ≤ n) :
    0 ≤ rnd (speed + rnd (n * rnd 0.02)) :=
  hrnd _ (add_nonneg hspeed (hrnd _ (mul_nonneg hn (hrnd _ (by norm_num)))))

theorem starStep_angle_le (m : LibM K) (s : Star K) (n rot cx cy : K)
    (hr : Reachable rot) (hj : 0 ≤ s.speed + n * 0.02) :
    s.angle ≤ (starStep m s n rot cx cy).1.angle := by
  rw [starStep_fields]
  exact updateAngleWith_angle_le id (fun _ _ h => h) (fun _ h => h) s n rot rfl
    (reachable_pos rot hr).le hj

theorem genCandidate_speed (m : LibM K) (g : Rng K) (s : Star K)
    (h : (genCandidate m g).1 = some s) : s.speed = orbitalSpeed m s.radius := by
  unfold genCandidate at h
  simp only [Rng.nextU] at h
  split_ifs at h
  · simp only [Option.some.injEq] at h
    subst h
    rfl
  · rcases hdp : diskPart m { g with ui := g.ui + 1 } with ⟨_ | v, g2⟩
    · rw [hdp] at h
      simp at h
    · rw [hdp] at h
      simp only [Option.some.injEq] at h
      subst h
      rfl

theorem genLoop_speed (m : LibM K) (n : Nat) :
    ∀ (g : Rng K) (stars : List (Star K)),
      (∀ s ∈ stars, s.speed = orbitalSpeed m s.radius) →
      ∀ s ∈ (genLoop m n g stars).1, s.speed = orbitalSpeed m s.radius := by
  induction n with
  | zero =>
    intro g stars hstars s hmem
    exact hstars s hmem
  | succ k ih =>
    intro g stars hstars s hmem
    unfold genLoop at hmem
    have hsp := genCandidate_speed m g
    rcases hc : genCandidate m g with ⟨_ | c, g2⟩
    · rw [hc] at hmem
      simp only at hmem
      exact ih g2 stars hstars s hmem
    · rw [hc] at hmem hsp
      simp only at hmem hsp
      refine ih g2 (stars ++ [c]) ?_ s hmem
      intro t ht
      rcases List.mem_append.mp ht with ht | ht
      · exact hstars t ht
      · rw [List.mem_singleton.mp ht]
        exact hsp c rfl

theorem generate_speed_pos (m : LibM K) (g : Rng K)
    (hU : ∀ i, 0 ≤ g.U i ∧ g.U i < 1) (hs : ∀ v : K, 0 ≤ v → 0 ≤ m.sqrt v) :
    ∀ s ∈ (generate m g).1, 0 < s.speed := by
  intro s hmem
  have hsp := genLoop_speed m NUM_STARS g [] (by simp) s hmem
  have hrad := genLoop_radius m hs NUM_STARS g [] hU (by simp) s hmem
  have hr : 0 ≤ s.radius := by
    cases hcore : s.isCore
    · have := (hrad.1 hcore).1
      linarith
    · exact hrad.2 hcore
  rw [hsp]
  exact orbitalSpeed_pos m s.radius (hs _ hr)

theorem genCandidate_core (m : LibM K) (g : Rng K) (h : g.U g.ui < 0.22) :
    ∃ s, (genCandidate m g).1 = some s ∧ s.isCore = true ∧
      s.radius = (corePart m { g with ui := g.ui + 1 }).1.2.2.2.1 ∧
      s.speed = orbitalSpeed m s.radius ∧
      s.color = lerp ⟨255, 255, 245, 230⟩ ⟨255, 200, 160, 210⟩ (s.radius / CORE_SIZE) := by
  unfold genCandidate
  simp only [Rng.nextU, h, if_true]
  exact ⟨_, rfl, rfl, rfl, rfl, rfl⟩

/-! ## The warp grid: number of segments -/

end Statements

/-! ## Binary32 rounding: error bound and evaluation -/

theorem roundNearestEven_error (t : ℚ) : |(roundNearestEven t : ℚ) - t| ≤ 1 / 2 := by
  have h0 : 0 ≤ t - ⌊t⌋ := sub_nonneg.mpr (Int.floor_le t)
  have h1 : t - ⌊t⌋ < 1 := by
    have := Int.lt_floor_add_one t
    linarith
  unfold roundNearestEven
  split_ifs with ha hb hc
  · rw [abs_le]
    constructor <;> linarith
  · rw [abs_le]
    push_cast
    constructor <;> linarith
  · rw [abs_le]
    constructor <;> linarith
  · rw [abs_le]
    push_cast
    constructor <;> linarith

theorem roundBinary32_error (q : ℚ) : |roundBinary32 q - q| ≤ 1 / 2 ^ 24 * |q| := by
  unfold roundBinary32
  split_ifs with hq
  · simp [hq]
  · have hpos : 0 < |q| := abs_pos.mpr hq
    set e := Int.log 2 |q| with he
    have hs : (0 : ℚ) < 2 ^ (e - 23) := by positivity
    have hlog : ((2 : ℕ) : ℚ) ^ e ≤ |q| := Int.zpow_log_le_self (by norm_num) hpos
    have hlog2 : (2 : ℚ) ^ e ≤ |q| := by exact_mod_cast hlog
    have hr := roundNearestEven_error (q / 2 ^ (e - 23))
    have hfac : (roundNearestEven (q / 2 ^ (e - 23)) : ℚ) * 2 ^ (e - 23) - q
        = ((roundNearestEven (q / 2 ^ (e - 23)) : ℚ) - q / 2 ^ (e - 23)) * 2 ^ (e - 23) := by
      field_simp
    rw [hfac, abs_mul, abs_of_pos hs]
    have hsplit : (2 : ℚ) ^ (e - 23) = 2 ^ e / 2 ^ 23 := by
      rw [zpow_sub₀ (by norm_num)]
      norm_num
    calc |(roundNearestEven (q / 2 ^ (e - 23)) : ℚ) - q / 2 ^ (e - 23)| * 2 ^ (e - 23)
        ≤ 1 / 2 * 2 ^ (e - 23) := mul_le_mul_of_nonneg_right hr hs.le
      _ = 1 / 2 ^ 24 * 2 ^ e := by rw [hsplit]; ring
      _ ≤ 1 / 2 ^ 24 * |q| := mul_le_mul_of_nonneg_left hlog2 (by positivity)

theorem log_two_eq (q : ℚ) (e : ℤ) (hlo : (2 : ℚ) ^ e ≤ |q|) (hhi : |q| < 2 ^ (e + 1)) :
    Int.log 2 |q| = e := by
  have hpos : 0 < |q| := lt_of_lt_of_le (by positivity) hlo
  have h1 : e ≤ Int.log 2 |q| :=
    (Int.zpow_le_iff_le_log (by norm_num) hpos).mp (by exact_mod_cast hlo)
  have h2 : Int.log 2 |q| < e + 1 :=
    (Int.lt_zpow_iff_log_lt (by norm_num) hpos).mp (by exact_mod_cast hhi)
  omega

theorem roundBinary32_eval (q : ℚ) (e m : ℤ) (hlo : (2 : ℚ) ^ e ≤ |q|)
    (hhi : |q| < 2 ^ (e + 1)) (hm : roundNearestEven (q / 2 ^ (e - 23)) = m) :
    roundBinary32 q = m * 2 ^ (e - 23) := by
  have hq : q ≠ 0 := by
    intro h
    rw [h, abs_zero] at hlo
    exact absurd hlo (not_le.mpr (by positivity))
  unfold roundBinary32
  rw [if_neg hq, log_two_eq q e hlo hhi, hm]

theorem roundBinary32_zero : roundBinary32 0 = 0 := by simp [roundBinary32]

theorem roundBinary32_literal_12 : roundBinary32 1.2 = 5033165 / 4194304 := by
  rw [roundBinary32_eval 1.2 0 10066330 (by norm_num [abs_of_pos]) (by norm_num [abs_of_pos])
    (by norm_num [roundNearestEven])]
  norm_num

theorem roundBinary32_literal_timeStep :
    roundBinary32 (TIME_STEP : ℚ) = 8589935 / 1073741824 := by
  rw [roundBinary32_eval _ (-7) 8589935 (by norm_num [abs_of_pos, TIME_STEP])
    (by norm_num [abs_of_pos, TIME_STEP]) (by norm_num [roundNearestEven, TIME_STEP])]
  norm_num

/-! ## Rounding to a binary format: monotonicity and sign

Rounding to nearest is monotone and keeps the sign, in every binary format; so is the
correctly rounded square root. -/

theorem roundBinary32_eq_roundFrac (q : ℚ) : roundBinary32 q = roundFrac 23 q := rfl

theorem roundNearestEven_floor_le (t : ℚ) : ⌊t⌋ ≤ roundNearestEven t := by
  unfold roundNearestEven
  split_ifs <;> omega

theorem roundNearestEven_le_ceil (t : ℚ) : roundNearestEven t ≤ ⌈t⌉ := by
  have hfc : ⌊t⌋ ≤ ⌈t⌉ := Int.floor_le_ceil t
  by_cases h : t - ⌊t⌋ < 1 / 2
  · simp only [roundNearestEven, h, if_true]
    exact hfc
  · have hlt : (⌊t⌋ : ℚ) < t := by linarith
    have h1 : ⌊t⌋ < ⌈t⌉ := by
      have : (⌊t⌋ : ℚ) < (⌈t⌉ : ℚ) := lt_of_lt_of_le hlt (Int.le_ceil t)
      exact_mod_cast this
    unfold roundNearestEven
    split_ifs <;> omega

theorem roundNearestEven_mono {t1 t2 : ℚ} (h : t1 ≤ t2) :
    roundNearestEven t1 ≤ roundNearestEven t2 := by
  have hf : ⌊t1⌋ ≤ ⌊t2⌋ := Int.floor_le_floor h
  rcases hf.lt_or_eq with hlt | heq
  · have h1 : roundNearestEven t1 ≤ ⌊t1⌋ + 1 := by
      unfold roundNearestEven
      split_ifs <;> omega
    have h2 := roundNearestEven_floor_le t2
    omega
  · have hd : t1 - ⌊t1⌋ ≤ t2 - ⌊t2⌋ := by
      rw [heq]
      linarith
    unfold roundNearestEven
    rw [heq] at hd ⊢
    split_ifs <;> first | omega | (exfalso; linarith)

theorem le_roundNearestEven {t : ℚ} {l : ℤ} (h : (l : ℚ) ≤ t) : l ≤ roundNearestEven t :=
  le_trans (Int.le_floor.mpr h) (roundNearestEven_floor_le t)

theorem roundNearestEven_le {t : ℚ} {u : ℤ} (h : t ≤ (u : ℚ)) : roundNearestEven t ≤ u :=
  le_trans (roundNearestEven_le_ceil t) (Int.ceil_le.mpr h)

theorem scale_mul (e : ℤ) (f : ℕ) : (2 : ℚ) ^ (f : ℕ) * 2 ^ (e - (f : ℤ)) = 2 ^ e := by
  rw [← zpow_natCast, ← zpow_add₀ (by norm_num : (2 : ℚ) ≠ 0)]
  congr 1
  ring

theorem scale_mul_succ (e : ℤ) (f : ℕ) : (2 : ℚ) ^ (f + 1 : ℕ) * 2 ^ (e - (f : ℤ)) = 2 ^ (e + 1) := by
  rw [← zpow_natCast, ← zpow_add₀ (by norm_num : (2 : ℚ) ≠ 0)]
  congr 1
  push_cast
  ring

theorem log_bounds {q : ℚ} (hq : 0 < q) :
    (2 : ℚ) ^ Int.log 2 q ≤ q ∧ q < 2 ^ (Int.log 2 q + 1) := by
  have h1 : ((2 : ℕ) : ℚ) ^ Int.log 2 q ≤ q := Int.zpow_log_le_self (by norm_num) hq
  have h2 : q < ((2 : ℕ) : ℚ) ^ (Int.log 2 q + 1) := Int.lt_zpow_succ_log_self (by norm_num) q
  exact ⟨by exact_mod_cast h1, by exact_mod_cast h2⟩

theorem roundFrac_pos_bounds (f : ℕ) {q : ℚ} (hq : 0 < q) :
    (2 : ℚ) ^ Int.log 2 q ≤ roundFrac f q ∧ roundFrac f q ≤ 2 ^ (Int.log 2 q + 1) := by
  obtain ⟨hlo, hhi⟩ := log_bounds hq
  unfold roundFrac
  rw [if_neg hq.ne', abs_of_pos hq]
  set e := Int.log 2 q
  have hs : (0 : ℚ) < 2 ^ (e - (f : ℤ)) := by positivity
  have h1 : (((2 ^ f : ℕ) : ℤ) : ℚ) ≤ q / 2 ^ (e - (f : ℤ)) := by
    rw [le_div_iff₀ hs]
    push_cast
    rw [scale_mul]
    exact hlo
  have h2 : q / 2 ^ (e - (f : ℤ)) ≤ (((2 ^ (f + 1) : ℕ) : ℤ) : ℚ) := by
    rw [div_le_iff₀ hs]
    push_cast
    rw [scale_mul_succ]
    exact hhi.le
  have h3 : (((2 ^ f : ℕ) : ℤ) : ℚ) ≤ (roundNearestEven (q / 2 ^ (e - (f : ℤ))) : ℚ) := by
    exact_mod_cast le_roundNearestEven h1
  have h4 : (roundNearestEven (q / 2 ^ (e - (f : ℤ))) : ℚ) ≤ (((2 ^ (f + 1) : ℕ) : ℤ) : ℚ) := by
    exact_mod_cast roundNearestEven_le h2
  constructor
  · calc (2 : ℚ) ^ e = (((2 ^ f : ℕ) : ℤ) : ℚ) * 2 ^ (e - (f : ℤ)) := by
          push_cast
          rw [scale_mul]
      _ ≤ _ := mul_le_mul_of_nonneg_right h3 hs.le
  · calc (roundNearestEven (q / 2 ^ (e - (f : ℤ))) : ℚ) * 2 ^ (e - (f : ℤ))
        ≤ (((2 ^ (f + 1) : ℕ) : ℤ) : ℚ) * 2 ^ (e - (f : ℤ)) :=
          mul_le_mul_of_nonneg_right h4 hs.le
      _ = 2 ^ (e + 1) := by
          push_cast
          rw [scale_mul_succ]

theorem roundFrac_neg_bounds (f : ℕ) {q : ℚ} (hq : q < 0) :
    -(2 : ℚ) ^ (Int.log 2 (-q) + 1) ≤ roundFrac f q ∧ roundFrac f q ≤ -(2 : ℚ) ^ Int.log 2 (-q) := by
  have hq' : 0 < -q := neg_pos.mpr hq
  obtain ⟨hlo, hhi⟩ := log_bounds hq'
  unfold roundFrac
  rw [if_neg hq.ne, abs_of_neg hq]
  set e := Int.log 2 (-q)
  have hs : (0 : ℚ) < 2 ^ (e - (f : ℤ)) := by positivity
  have h1 : q / 2 ^ (e - (f : ℤ)) ≤ ((-((2 ^ f : ℕ) : ℤ) : ℤ) : ℚ) := by
    rw [div_le_iff₀ hs]
    push_cast
    rw [neg_mul, scale_mul]
    linarith
  have h2 : ((-((2 ^ (f + 1) : ℕ) : ℤ) : ℤ) : ℚ) ≤ q / 2 ^ (e - (f : ℤ)) := by
    rw [le_div_iff₀ hs]
    push_cast
    rw [neg_mul, scale_mul_succ]
    linarith
  have h3 : (roundNearestEven (q / 2 ^ (e - (f : ℤ))) : ℚ) ≤ ((-((2 ^ f : ℕ) : ℤ) : ℤ) : ℚ) := by
    exact_mod_cast roundNearestEven_le h1
  have h4 : ((-((2 ^ (f + 1) : ℕ) : ℤ) : ℤ) : ℚ) ≤ (roundNearestEven (q / 2 ^ (e - (f : ℤ))) : ℚ) := by
    exact_mod_cast le_roundNearestEven h2
  constructor
  · calc -(2 : ℚ) ^ (e + 1) = ((-((2 ^ (f + 1) : ℕ) : ℤ) : ℤ) : ℚ) * 2 ^ (e - (f : ℤ)) := by
          push_cast
          rw [neg_mul, scale_mul_succ]
      _ ≤ _ := mul_le_mul_of_nonneg_right h4 hs.le
  · calc (roundNearestEven (q / 2 ^ (e - (f : ℤ))) : ℚ) * 2 ^ (e - (f : ℤ))
        ≤ ((-((2 ^ f : ℕ) : ℤ) : ℤ) : ℚ) * 2 ^ (e - (f : ℤ)) :=
          mul_le_mul_of_nonneg_right h3 hs.le
      _ = -(2 : ℚ) ^ e := by
          push_cast
          rw [neg_mul, scale_mul]

theorem roundFrac_zero (f : ℕ) : roundFrac f 0 = 0 := by simp [roundFrac]

theorem roundFrac_pos (f : ℕ) {q : ℚ} (hq : 0 < q) : 0 < roundFrac f q :=
  lt_of_lt_of_le (by positivity) (roundFrac_pos_bounds f hq).1

theorem roundFrac_neg (f : ℕ) {q : ℚ} (hq : q < 0) : roundFrac f q < 0 :=
  lt_of_le_of_lt (roundFrac_neg_bounds f hq).2 (by
    have : (0 : ℚ) < 2 ^ Int.log 2 (-q) := by positivity
    linarith)

theorem roundFrac_mono_pos (f : ℕ) {x y : ℚ} (hx : 0 < x) (hxy : x ≤ y) :
    roundFrac f x ≤ roundFrac f y := by
  have hy : 0 < y := lt_of_lt_of_le hx hxy
  have hlog : Int.log 2 x ≤ Int.log 2 y := Int.log_mono_right hx hxy
  rcases hlog.lt_or_eq with hlt | heq
  · have h1 := (roundFrac_pos_bounds f hx).2
    have h2 := (roundFrac_pos_bounds f hy).1
    have h3 : (2 : ℚ) ^ (Int.log 2 x + 1) ≤ 2 ^ Int.log 2 y :=
      zpow_le_zpow_right₀ (by norm_num) (by omega)
    linarith
  · unfold roundFrac
    rw [if_neg hx.ne', if_neg hy.ne', abs_of_pos hx, abs_of_pos hy, heq]
    have hs : (0 : ℚ) < 2 ^ (Int.log 2 y - (f : ℤ)) := by positivity
    have ht : x / 2 ^ (Int.log 2 y - (f : ℤ)) ≤ y / 2 ^ (Int.log 2 y - (f : ℤ)) :=
      div_le_div_of_nonneg_right hxy hs.le
    have := roundNearestEven_mono ht
    exact mul_le_mul_of_nonneg_right (by exact_mod_cast this) hs.le

theorem roundFrac_mono_neg (f : ℕ) {x y : ℚ} (hy : y < 0) (hxy : x ≤ y) :
    roundFrac f x ≤ roundFrac f y := by
  have hx : x < 0 := lt_of_le_of_lt hxy hy
  have hlog : Int.log 2 (-y) ≤ Int.log 2 (-x) :=
    Int.log_mono_right (neg_pos.mpr hy) (neg_le_neg hxy)
  rcases hlog.lt_or_eq with hlt | heq
  · have h1 := (roundFrac_neg_bounds f hx).2
    have h2 := (roundFrac_neg_bounds f hy).1
    have h3 : (2 : ℚ) ^ (Int.log 2 (-y) + 1) ≤ 2 ^ Int.log 2 (-x) :=
      zpow_le_zpow_right₀ (by norm_num) (by omega)
    linarith
  · unfold roundFrac
    rw [if_neg hx.ne, if_neg hy.ne, abs_of_neg hx, abs_of_neg hy, heq]
    have hs : (0 : ℚ) < 2 ^ (Int.log 2 (-x) - (f : ℤ)) := by positivity
    have ht : x / 2 ^ (Int.log 2 (-x) - (f : ℤ)) ≤ y / 2 ^ (Int.log 2 (-x) - (f : ℤ)) :=
      div_le_div_of_nonneg_right hxy hs.le
    have := roundNearestEven_mono ht
    exact mul_le_mul_of_nonneg_right (by exact_mod_cast this) hs.le

theorem roundFrac_mono (f : ℕ) {x y : ℚ} (hxy : x ≤ y) : roundFrac f x ≤ roundFrac f y := by
  rcases lt_trichotomy x 0 with hx | hx | hx
  · rcases lt_trichotomy y 0 with hy | hy | hy
    · exact roundFrac_mono_neg f hy hxy
    · rw [hy, roundFrac_zero]
      exact (roundFrac_neg f hx).le
    · exact le_trans (roundFrac_neg f hx).le (roundFrac_pos f hy).le
  · rw [hx, roundFrac_zero]
    rcases (hx ▸ hxy).lt_or_eq with hy | hy
    · exact (roundFrac_pos f hy).le
    · rw [← hy, roundFrac_zero]
  · exact roundFrac_mono_pos f hx hxy

theorem roundBinary32_mono {x y : ℚ} (hxy : x ≤ y) : roundBinary32 x ≤ roundBinary32 y :=
  roundFrac_mono 23 hxy

theorem roundBinary32_nonneg {q : ℚ} (h : 0 ≤ q) : 0 ≤ roundBinary32 q := by
  have := roundBinary32_mono h
  rwa [roundBinary32_zero] at this

theorem roundBinary32_pos {q : ℚ} (h : 0 < q) : 0 < roundBinary32 q :=
  roundFrac_pos 23 h

theorem roundBinary64_mono {x y : ℚ} (hxy : x ≤ y) : roundBinary64 x ≤ roundBinary64 y :=
  roundFrac_mono 52 hxy

theorem roundBinary64_nonneg {q : ℚ} (h : 0 ≤ q) : 0 ≤ roundBinary64 q := by
  have := roundBinary64_mono h
  unfold roundBinary64 at this
  rwa [roundFrac_zero] at this

theorem roundBinary64_pos {q : ℚ} (h : 0 < q) : 0 < roundBinary64 q :=
  roundFrac_pos 52 h

theorem roundFrac_eval (f : ℕ) (q : ℚ) (e m : ℤ) (hlo : (2 : ℚ) ^ e ≤ |q|)
    (hhi : |q| < 2 ^ (e + 1)) (hm : roundNearestEven (q / 2 ^ (e - (f : ℤ))) = m) :
    roundFrac f q = (m : ℚ) * 2 ^ (e - (f : ℤ)) := by
  have hq : q ≠ 0 := by
    intro h
    rw [h, abs_zero] at hlo
    exact absurd hlo (not_le.mpr (by positivity))
  unfold roundFrac
  rw [if_neg hq, log_two_eq q e hlo hhi, hm]

/-! ## The correctly rounded square root

`sqrtRound_nearest` states that `sqrtRound f q` is within half a unit in the last place of
the real square root of `q`: `q` lies between the squares of the two midpoints next to
it. -/

theorem sqrt_floor_eq (t : ℚ) (k : ℕ) (hlo : (k : ℚ) ^ 2 ≤ t) (hhi : t < ((k : ℚ) + 1) ^ 2) :
    Nat.sqrt ⌊t⌋₊ = k := by
  have ht : 0 ≤ t := le_trans (by positivity) hlo
  symm
  rw [Nat.eq_sqrt]
  constructor
  · apply Nat.le_floor
    push_cast
    linarith [sq (k : ℚ)]
  · rw [Nat.floor_lt ht]
    push_cast
    linarith [sq ((k : ℚ) + 1)]

theorem sqrtNearest_down (t : ℚ) (k : ℕ) (hlo : (k : ℚ) ^ 2 ≤ t)
    (hhi : t < (k : ℚ) ^ 2 + k + 1 / 4) : sqrtNearest t = k := by
  have hk := sqrt_floor_eq t k hlo (by nlinarith)
  unfold sqrtNearest
  rw [hk, if_pos hhi]

theorem sqrtNearest_up (t : ℚ) (k : ℕ) (hlo : (k : ℚ) ^ 2 + k + 1 / 4 < t)
    (hhi : t < ((k : ℚ) + 1) ^ 2) : sqrtNearest t = k + 1 := by
  have hk := sqrt_floor_eq t k (by nlinarith) hhi
  unfold sqrtNearest
  rw [hk, if_neg (not_lt.mpr hlo.le), if_neg (fun h => absurd h.1 hlo.ne')]

theorem log_half_eq (q : ℚ) (h : ℤ) (hlo : ((2 : ℚ) ^ h) ^ 2 ≤ q) (hhi : q < ((2 : ℚ) ^ (h + 1)) ^ 2) :
    Int.log 2 q / 2 = h := by
  have hq : 0 < q := lt_of_lt_of_le (by positivity) hlo
  have hl := log_bounds hq
  rw [← zpow_natCast, ← zpow_mul] at hlo hhi
  have h1 : (2 : ℚ) ^ (h * ((2 : ℕ) : ℤ)) < 2 ^ (Int.log 2 q + 1) := lt_of_le_of_lt hlo hl.2
  have h2 : (2 : ℚ) ^ Int.log 2 q < 2 ^ ((h + 1) * ((2 : ℕ) : ℤ)) := lt_of_le_of_lt hl.1 hhi
  have h3 := (zpow_lt_zpow_iff_right₀ (by norm_num : (1 : ℚ) < 2)).mp h1
  have h4 := (zpow_lt_zpow_iff_right₀ (by norm_num : (1 : ℚ) < 2)).mp h2
  push_cast at h3 h4
  omega

theorem sqrtRound_eval (f : ℕ) (q : ℚ) (h : ℤ) (m : ℕ) (hlo : ((2 : ℚ) ^ h) ^ 2 ≤ q)
    (hhi : q < ((2 : ℚ) ^ (h + 1)) ^ 2)
    (hm : sqrtNearest (q / (2 ^ (h - (f : ℤ))) ^ 2) = m) :
    sqrtRound f q = (m : ℚ) * 2 ^ (h - (f : ℤ)) := by
  have hq : 0 < q := lt_of_lt_of_le (by positivity) hlo
  unfold sqrtRound
  rw [if_neg (not_le.mpr hq), log_half_eq q h hlo hhi, hm]

example : sqrtRound 23 (8388609 / 8388608) = 1 := by
  rw [sqrtRound_eval 23 _ 0 8388608 (by norm_num) (by norm_num)
    (sqrtNearest_down _ 8388608 (by norm_num) (by norm_num))]
  norm_num

theorem sqrt_floor_bounds {t : ℚ} (ht : 0 ≤ t) :
    (Nat.sqrt ⌊t⌋₊ : ℚ) ^ 2 ≤ t ∧ t < ((Nat.sqrt ⌊t⌋₊ : ℚ) + 1) ^ 2 := by
  have h1 : Nat.sqrt ⌊t⌋₊ ^ 2 ≤ ⌊t⌋₊ := Nat.sqrt_le' _
  have h2 : ⌊t⌋₊ < (Nat.sqrt ⌊t⌋₊ + 1) ^ 2 := Nat.lt_succ_sqrt' _
  have h3 : ((⌊t⌋₊ : ℕ) : ℚ) ≤ t := Nat.floor_le ht
  have h4 : t < ((⌊t⌋₊ : ℕ) : ℚ) + 1 := Nat.lt_floor_add_one t
  have h5 : ((Nat.sqrt ⌊t⌋₊ ^ 2 : ℕ) : ℚ) ≤ ((⌊t⌋₊ : ℕ) : ℚ) := by exact_mod_cast h1
  have h6 : ((⌊t⌋₊ : ℕ) : ℚ) + 1 ≤ (((Nat.sqrt ⌊t⌋₊ + 1) ^ 2 : ℕ) : ℚ) := by exact_mod_cast h2
  push_cast at h5 h6
  exact ⟨le_trans h5 h3, lt_of_lt_of_le h4 h6⟩

theorem sqrtNearest_ge (t : ℚ) : Nat.sqrt ⌊t⌋₊ ≤ sqrtNearest t := by
  unfold sqrtNearest
  split_ifs <;> omega

theorem sqrtNearest_le_succ (t : ℚ) : sqrtNearest t ≤ Nat.sqrt ⌊t⌋₊ + 1 := by
  unfold sqrtNearest
  split_ifs <;> omega

theorem sqrtNearest_mono {t1 t2 : ℚ} (h : t1 ≤ t2) : sqrtNearest t1 ≤ sqrtNearest t2 := by
  have hk : Nat.sqrt ⌊t1⌋₊ ≤ Nat.sqrt ⌊t2⌋₊ := Nat.sqrt_le_sqrt (Nat.floor_mono h)
  rcases hk.lt_or_eq with hlt | heq
  · have h1 := sqrtNearest_le_succ t1
    have h2 := sqrtNearest_ge t2
    omega
  · unfold sqrtNearest
    rw [heq]
    split_ifs with a1 a2 a3 a4 a5 a6
    all_goals first
      | omega
      | (exfalso; linarith)
      | (rename_i hx hy; exfalso
         exact a4 ⟨le_antisymm (by linarith [hy.1]) (not_lt.mp a1), hy.2⟩)

theorem le_sqrtNearest {t : ℚ} {a : ℕ} (h : (a : ℚ) ^ 2 ≤ t) : a ≤ sqrtNearest t := by
  refine le_trans ?_ (sqrtNearest_ge t)
  rw [Nat.le_sqrt]
  apply Nat.le_floor
  push_cast
  linarith [sq (a : ℚ)]

theorem sqrtNearest_le {t : ℚ} {b : ℕ} (h0 : 0 ≤ t) (h : t ≤ (b : ℚ) ^ 2) :
    sqrtNearest t ≤ b := by
  have hb := sqrt_floor_bounds h0
  have hkb : Nat.sqrt ⌊t⌋₊ ≤ b := by
    by_contra hc
    have h1 : b + 1 ≤ Nat.sqrt ⌊t⌋₊ := by omega
    have h2 : ((b : ℚ) + 1) ≤ (Nat.sqrt ⌊t⌋₊ : ℚ) := by exact_mod_cast h1
    have h3 : (0 : ℚ) ≤ b := Nat.cast_nonneg b
    nlinarith
  rcases hkb.lt_or_eq with hlt | heq
  · have := sqrtNearest_le_succ t
    omega
  · unfold sqrtNearest
    rw [heq, if_pos]
    have h3 : (0 : ℚ) ≤ b := Nat.cast_nonneg b
    linarith

theorem half_log_bounds {q : ℚ} (hq : 0 < q) :
    ((2 : ℚ) ^ (Int.log 2 q / 2)) ^ 2 ≤ q ∧ q < ((2 : ℚ) ^ (Int.log 2 q / 2 + 1)) ^ 2 := by
  obtain ⟨hlo, hhi⟩ := log_bounds hq
  rw [← zpow_natCast, ← zpow_mul, ← zpow_natCast, ← zpow_mul]
  constructor
  · refine le_trans (zpow_le_zpow_right₀ (by norm_num) ?_) hlo
    push_cast
    omega
  · refine lt_of_lt_of_le hhi (zpow_le_zpow_right₀ (by norm_num) ?_)
    push_cast
    omega

theorem scale_sq (e : ℤ) (f : ℕ) :
    ((2 : ℚ) ^ (f : ℕ)) ^ 2 * (2 ^ (e - (f : ℤ))) ^ 2 = (2 ^ e) ^ 2 := by
  rw [← mul_pow, scale_mul]

theorem scale_sq_succ (e : ℤ) (f : ℕ) :
    ((2 : ℚ) ^ (f + 1 : ℕ)) ^ 2 * (2 ^ (e - (f : ℤ))) ^ 2 = (2 ^ (e + 1)) ^ 2 := by
  rw [← mul_pow, scale_mul_succ]

theorem sqrtRound_pos_bounds (f : ℕ) {q : ℚ} (hq : 0 < q) :
    (2 : ℚ) ^ (Int.log 2 q / 2) ≤ sqrtRound f q ∧
      sqrtRound f q ≤ 2 ^ (Int.log 2 q / 2 + 1) := by
  obtain ⟨hlo, hhi⟩ := half_log_bounds hq
  unfold sqrtRound
  rw [if_neg (not_le.mpr hq)]
  set h := Int.log 2 q / 2
  have hs : (0 : ℚ) < 2 ^ (h - (f : ℤ)) := by positivity
  have hs2 : (0 : ℚ) < (2 ^ (h - (f : ℤ))) ^ 2 := by positivity
  have h1 : (((2 ^ f : ℕ) : ℕ) : ℚ) ^ 2 ≤ q / (2 ^ (h - (f : ℤ))) ^ 2 := by
    rw [le_div_iff₀ hs2]
    push_cast
    rw [scale_sq]
    exact hlo
  have h2 : q / (2 ^ (h - (f : ℤ))) ^ 2 ≤ (((2 ^ (f + 1) : ℕ) : ℕ) : ℚ) ^ 2 := by
    rw [div_le_iff₀ hs2]
    push_cast
    rw [scale_sq_succ]
    exact hhi.le
  have h3 : (((2 ^ f : ℕ) : ℕ) : ℚ) ≤ (sqrtNearest (q / (2 ^ (h - (f : ℤ))) ^ 2) : ℚ) := by
    exact_mod_cast le_sqrtNearest h1
  have h4 : (sqrtNearest (q / (2 ^ (h - (f : ℤ))) ^ 2) : ℚ) ≤ (((2 ^ (f + 1) : ℕ) : ℕ) : ℚ) := by
    exact_mod_cast sqrtNearest_le (div_nonneg hq.le hs2.le) h2
  constructor
  · calc (2 : ℚ) ^ h = (((2 ^ f : ℕ) : ℕ) : ℚ) * 2 ^ (h - (f : ℤ)) := by
          push_cast
          rw [scale_mul]
      _ ≤ _ := mul_le_mul_of_nonneg_right h3 hs.le
  · calc (sqrtNearest (q / (2 ^ (h - (f : ℤ))) ^ 2) : ℚ) * 2 ^ (h - (f : ℤ))
        ≤ (((2 ^ (f + 1) : ℕ) : ℕ) : ℚ) * 2 ^ (h - (f : ℤ)) :=
          mul_le_mul_of_nonneg_right h4 hs.le
      _ = 2 ^ (h + 1) := by
          push_cast
          rw [scale_mul_succ]

theorem sqrtRound_nonneg (f : ℕ) (q : ℚ) : 0 ≤ sqrtRound f q := by
  unfold sqrtRound
  split_ifs
  · exact le_refl 0
  · positivity

theorem sqrtRound_mono (f : ℕ) {x y : ℚ} (hxy : x ≤ y) : sqrtRound f x ≤ sqrtRound f y := by
  rcases le_or_lt x 0 with hx | hx
  · have : sqrtRound f x = 0 := by
      unfold sqrtRound
      rw [if_pos hx]
    rw [this]
    exact sqrtRound_nonneg f y
  · have hy : 0 < y := lt_of_lt_of_le hx hxy
    have hlog : Int.log 2 x / 2 ≤ Int.log 2 y / 2 :=
      Int.ediv_le_ediv (by norm_num) (Int.log_mono_right hx hxy)
    rcases hlog.lt_or_eq with hlt | heq
    · have h1 := (sqrtRound_pos_bounds f hx).2
      have h2 := (sqrtRound_pos_bounds f hy).1
      have h3 : (2 : ℚ) ^ (Int.log 2 x / 2 + 1) ≤ 2 ^ (Int.log 2 y / 2) :=
        zpow_le_zpow_right₀ (by norm_num) (by omega)
      linarith
    · unfold sqrtRound
      rw [if_neg (not_le.mpr hx), if_neg (not_le.mpr hy), heq]
      have hs : (0 : ℚ) < 2 ^ (Int.log 2 y / 2 - (f : ℤ)) := by positivity
      have hs2 : (0 : ℚ) < (2 ^ (Int.log 2 y / 2 - (f : ℤ))) ^ 2 := by positivity
      have ht : x / (2 ^ (Int.log 2 y / 2 - (f : ℤ))) ^ 2
          ≤ y / (2 ^ (Int.log 2 y / 2 - (f : ℤ))) ^ 2 :=
        div_le_div_of_nonneg_right hxy hs2.le
      have := sqrtNearest_mono ht
      exact mul_le_mul_of_nonneg_right (by exact_mod_cast this) hs.le

theorem sqrtNearest_nearest {t : ℚ} (ht : 1 ≤ t) :
    ((sqrtNearest t : ℚ) - 1 / 2) ^ 2 ≤ t ∧ t ≤ ((sqrtNearest t : ℚ) + 1 / 2) ^ 2 := by
  obtain ⟨hlo, hhi⟩ := sqrt_floor_bounds (le_trans zero_le_one ht)
  have hk1 : 1 ≤ Nat.sqrt ⌊t⌋₊ := by
    rw [Nat.le_sqrt]
    apply Nat.le_floor
    simpa using ht
  have hk : (1 : ℚ) ≤ (Nat.sqrt ⌊t⌋₊ : ℚ) := by exact_mod_cast hk1
  unfold sqrtNearest
  split_ifs with a1 a2
  · constructor <;> nlinarith
  · constructor <;> nlinarith [a2.1]
  · push_cast
    constructor <;> nlinarith [not_lt.mp a1]

theorem sqrtRound_nearest (f : ℕ) {q : ℚ} (hq : 0 < q) :
    (sqrtRound f q - 2 ^ (Int.log 2 q / 2 - (f : ℤ)) / 2) ^ 2 ≤ q ∧
      q ≤ (sqrtRound f q + 2 ^ (Int.log 2 q / 2 - (f : ℤ)) / 2) ^ 2 := by
  obtain ⟨hlo, hhi⟩ := half_log_bounds hq
  unfold sqrtRound
  rw [if_neg (not_le.mpr hq)]
  set h := Int.log 2 q / 2
  set u : ℚ := 2 ^ (h - (f : ℤ)) with hu
  have hs : (0 : ℚ) < u := by positivity
  have hs2 : (0 : ℚ) < u ^ 2 := by positivity
  have h1 : (1 : ℚ) ≤ q / u ^ 2 := by
    rw [le_div_iff₀ hs2, one_mul]
    have hf : (1 : ℚ) ≤ ((2 : ℚ) ^ (f : ℕ)) ^ 2 := one_le_pow₀ (one_le_pow₀ (by norm_num))
    have := scale_sq h f
    rw [← hu] at this
    nlinarith
  obtain ⟨hn1, hn2⟩ := sqrtNearest_nearest h1
  set m : ℚ := (sqrtNearest (q / u ^ 2) : ℚ)
  have e1 : (m * u - u / 2) ^ 2 = (m - 1 / 2) ^ 2 * u ^ 2 := by ring
  have e2 : (m * u + u / 2) ^ 2 = (m + 1 / 2) ^ 2 * u ^ 2 := by ring
  rw [e1, e2]
  constructor
  · calc (m - 1 / 2) ^ 2 * u ^ 2 ≤ q / u ^ 2 * u ^ 2 := mul_le_mul_of_nonneg_right hn1 hs2.le
      _ = q := div_mul_cancel₀ q hs2.ne'
  · calc q = q / u ^ 2 * u ^ 2 := (div_mul_cancel₀ q hs2.ne').symm
      _ ≤ (m + 1 / 2) ^ 2 * u ^ 2 := mul_le_mul_of_nonneg_right hn2 hs2.le

/-! ## Key handling under binary32 rounding -/

theorem roundTrip_error (rnd : ℚ → ℚ) (u : ℚ) (hu : 0 ≤ u)
    (hrnd : ∀ x, |rnd x - x| ≤ u * |x|) (x c : ℚ) (hc : c ≠ 0) :
    |rnd (rnd (x * c) / c) - x| ≤ ((1 + u) ^ 2 - 1) * |x| := by
  have hcpos : 0 < |c| := abs_pos.mpr hc
  have h1 := hrnd (x * c)
  have h2 := hrnd (rnd (x * c) / c)
  rw [abs_mul] at h1
  have hy : |rnd (x * c)| ≤ (1 + u) * (|x| * |c|) := by
    have := abs_sub_abs_le_abs_sub (rnd (x * c)) (x * c)
    rw [abs_mul] at this
    linarith
  have hyc : |rnd (x * c) / c| ≤ (1 + u) * |x| := by
    rw [abs_div, div_le_iff₀ hcpos]
    linarith
  have hmid : |rnd (x * c) / c - x| ≤ u * |x| := by
    have : rnd (x * c) / c - x = (rnd (x * c) - x * c) / c := by
      field_simp
      ring
    rw [this, abs_div, div_le_iff₀ hcpos]
    linarith
  have h3 : u * |rnd (x * c) / c| ≤ u * ((1 + u) * |x|) := mul_le_mul_of_nonneg_left hyc hu
  calc |rnd (rnd (x * c) / c) - x|
      = |(rnd (rnd (x * c) / c) - rnd (x * c) / c) + (rnd (x * c) / c - x)| := by ring_nf
    _ ≤ |rnd (rnd (x * c) / c) - rnd (x * c) / c| + |rnd (x * c) / c - x| := abs_add _ _
    _ ≤ u * ((1 + u) * |x|) + u * |x| := by linarith
    _ = ((1 + u) ^ 2 - 1) * |x| := by ring

theorem pressAdd_eval (x : ℚ) (e m : ℤ) (hlo : (2 : ℚ) ^ e ≤ |x * (5033165 / 4194304)|)
    (hhi : |x * (5033165 / 4194304)| < 2 ^ (e + 1))
    (hm : roundNearestEven (x * (5033165 / 4194304) / 2 ^ (e - 23)) = m) :
    handleKeyWith roundBinary32 x (Event.KeyPressed Key.Add) = m * 2 ^ (e - 23) := by
  simp only [handleKeyWith, roundBinary32_literal_12]
  exact roundBinary32_eval _ e m hlo hhi hm

theorem pressSubtract_eval (x : ℚ) (e m : ℤ) (hlo : (2 : ℚ) ^ e ≤ |x / (5033165 / 4194304)|)
    (hhi : |x / (5033165 / 4194304)| < 2 ^ (e + 1))
    (hm : roundNearestEven (x / (5033165 / 4194304) / 2 ^ (e - 23)) = m) :
    handleKeyWith roundBinary32 x (Event.KeyPressed Key.Subtract) = m * 2 ^ (e - 23) := by
  simp only [handleKeyWith, roundBinary32_literal_12]
  exact roundBinary32_eval _ e m hlo hhi hm

theorem pressAdd_fifteen :
    (List.replicate 15 (Event.KeyPressed Key.Add)).foldl (handleKeyWith roundBinary32) 1
      = 8077721 / 524288 := by
  have h1 : handleKeyWith roundBinary32 (1) (Event.KeyPressed Key.Add) = 5033165 / 4194304 := by
    rw [pressAdd_eval _ (0) 10066330 (by norm_num [abs_of_pos]) (by norm_num [abs_of_pos])
      (by norm_num [roundNearestEven])]
    norm_num
  have h2 : handleKeyWith roundBinary32 (5033165 / 4194304) (Event.KeyPressed Key.Add) = 3019899 / 2097152 := by
    rw [pressAdd_eval _ (0) 12079596 (by norm_num [abs_of_pos]) (by norm_num [abs_of_pos])
      (by norm_num [roundNearestEven])]
    norm_num
  have h3 : handleKeyWith roundBinary32 (3019899 / 2097152) (Event.KeyPressed Key.Add) = 3623879 / 2097152 := by
    rw [pressAdd_eval _ (0) 14495516 (by norm_num [abs_of_pos]) (by norm_num [abs_of_pos])
      (by norm_num [roundNearestEven])]
    norm_num
  have h4 : handleKeyWith roundBinary32 (3623879 / 2097152) (Event.KeyPressed Key.Add) = 4348655 / 2097152 := by
    rw [pressAdd_eval _ (1) 8697310 (by norm_num [abs_of_pos]) (by norm_num [abs_of_pos])
      (by norm_num [roundNearestEven])]
    norm_num
  have h5 : handleKeyWith roundBinary32 (4348655 / 2097152) (Event.KeyPressed Key.Add) = 2609193 / 1048576 := by
    rw [pressAdd_eval _ (1) 10436772 (by norm_num [abs_of_pos]) (by norm_num [abs_of_pos])
      (by norm_num [roundNearestEven])]
    norm_num
  have h6 : handleKeyWith roundBinary32 (2609193 / 1048576) (Event.KeyPressed Key.Add) = 12524127 / 4194304 := by
    rw [pressAdd_eval _ (1) 12524127 (by norm_num [abs_of_pos]) (by norm_num [abs_of_pos])
      (by norm_num [roundNearestEven])]
    norm_num
  have h7 : handleKeyWith roundBinary32 (12524127 / 4194304) (Event.KeyPressed Key.Add) = 15028953 / 4194304 := by
    rw [pressAdd_eval _ (1) 15028953 (by norm_num [abs_of_pos]) (by norm_num [abs_of_pos])
      (by norm_num [roundNearestEven])]
    norm_num
  have h8 : handleKeyWith roundBinary32 (15028953 / 4194304) (Event.KeyPressed Key.Add) = 2254343 / 524288 := by
    rw [pressAdd_eval _ (2) 9017372 (by norm_num [abs_of_pos]) (by norm_num [abs_of_pos])
      (by norm_num [roundNearestEven])]
    norm_num
  have h9 : handleKeyWith roundBinary32 (2254343 / 524288) (Event.KeyPressed Key.Add) = 10820847 / 2097152 := by
    rw [pressAdd_eval _ (2) 10820847 (by norm_num [abs_of_pos]) (by norm_num [abs_of_pos])
      (by norm_num [roundNearestEven])]
    norm_num
  have h10 : handleKeyWith roundBinary32 (10820847 / 2097152) (Event.KeyPressed Key.Add) = 12985017 / 2097152 := by
    rw [pressAdd_eval _ (2) 12985017 (by norm_num [abs_of_pos]) (by norm_num [abs_of_pos])
      (by norm_num [roundNearestEven])]
    norm_num
  have h11 : handleKeyWith roundBinary32 (12985017 / 2097152) (Event.KeyPressed Key.Add) = 15582021 / 2097152 := by
    rw [pressAdd_eval _ (2) 15582021 (by norm_num [abs_of_pos]) (by norm_num [abs_of_pos])
      (by norm_num [roundNearestEven])]
    norm_num
  have h12 : handleKeyWith roundBinary32 (15582021 / 2097152) (Event.KeyPressed Key.Add) = 9349213 / 1048576 := by
    rw [pressAdd_eval _ (3) 9349213 (by norm_num [abs_of_pos]) (by norm_num [abs_of_pos])
      (by norm_num [roundNearestEven])]
    norm_num
  have h13 : handleKeyWith roundBinary32 (9349213 / 1048576) (Event.KeyPressed Key.Add) = 701191 / 65536 := by
    rw [pressAdd_eval _ (3) 11219056 (by norm_num [abs_of_pos]) (by norm_num [abs_of_pos])
      (by norm_num [roundNearestEven])]
    norm_num
  have h14 : handleKeyWith roundBinary32 (701191 / 65536) (Event.KeyPressed Key.Add) = 3365717 / 262144 := by
    rw [pressAdd_eval _ (3) 13462868 (by norm_num [abs_of_pos]) (by norm_num [abs_of_pos])
      (by norm_num [roundNearestEven])]
    norm_num
  have h15 : handleKeyWith roundBinary32 (3365717 / 262144) (Event.KeyPressed Key.Add) = 8077721 / 524288 := by
    rw [pressAdd_eval _ (3) 16155442 (by norm_num [abs_of_pos]) (by norm_num [abs_of_pos])
      (by norm_num [roundNearestEven])]
    norm_num
  simp only [List.replicate, List.foldl, h1, h2, h3, h4, h5, h6, h7, h8, h9, h10, h11, h12,
    h13, h14, h15]

/-- C8 (counterexample): under binary32 rounding, from `rotationMultiplier = 15` an
"increase speed" press gives `18` and the following "decrease speed" press gives
`15728639 / 1048576`, the `float` just below 15; and from the value
`8077721 / 524288` reached by fifteen "increase speed" presses from the initial `1.0` the
two presses give `16155443 / 1048576`, the `float` just above it. -/
theorem increase_then_decrease_not_exact :
    handleKeyWith roundBinary32 (handleKeyWith roundBinary32 15 (Event.KeyPressed Key.Add))
        (Event.KeyPressed Key.Subtract) = 15728639 / 1048576 ∧
      (15728639 / 1048576 : ℚ) ≠ 15 ∧
      (List.replicate 15 (Event.KeyPressed Key.Add)).foldl (handleKeyWith roundBinary32) 1
        = 8077721 / 524288 ∧
      handleKeyWith roundBinary32
        (handleKeyWith roundBinary32 (8077721 / 524288) (Event.KeyPressed Key.Add))
        (Event.KeyPressed Key.Subtract) = 16155443 / 1048576 ∧
      (16155443 / 1048576 : ℚ) ≠ 8077721 / 524288 := by
  have ha : handleKeyWith roundBinary32 15 (Event.KeyPressed Key.Add) = 18 := by
    rw [pressAdd_eval _ (4) 9437184 (by norm_num [abs_of_pos]) (by norm_num [abs_of_pos])
      (by norm_num [roundNearestEven])]
    norm_num
  have hb : handleKeyWith roundBinary32 18 (Event.KeyPressed Key.Subtract)
      = 15728639 / 1048576 := by
    rw [pressSubtract_eval _ (3) 15728639 (by norm_num [abs_of_pos]) (by norm_num [abs_of_pos])
      (by norm_num [roundNearestEven])]
    norm_num
  have hc : handleKeyWith roundBinary32 (8077721 / 524288) (Event.KeyPressed Key.Add) = 4846633 / 262144 := by
    rw [pressAdd_eval _ (4) 9693266 (by norm_num [abs_of_pos]) (by norm_num [abs_of_pos])
      (by norm_num [roundNearestEven])]
    norm_num
  have hd : handleKeyWith roundBinary32 (4846633 / 262144) (Event.KeyPressed Key.Subtract) = 16155443 / 1048576 := by
    rw [pressSubtract_eval _ (3) 16155443 (by norm_num [abs_of_pos]) (by norm_num [abs_of_pos])
      (by norm_num [roundNearestEven])]
    norm_num
  refine ⟨by rw [ha, hb], by norm_num, pressAdd_fifteen, by rw [hc, hd], by norm_num⟩

/-- C8 (amended): under binary32 rounding an "increase speed" key press (`Add` or `Equal`:
multiply by `1.2f`) followed by a "decrease speed" key press (`Subtract` or `Hyphen`:
divide by `1.2f`) returns `rotationMultiplier` to within the relative error
`(1 + 2^-24)^2 - 1 = 2^-23 + 2^-48` of its original value, and in exact arithmetic to the
original value itself, also through the event loop; every other event (another key, a
non-key event, the close event) leaves it unchanged, whatever the rounding. -/
theorem increase_then_decrease_rounded (rot : ℚ) :
    (∀ inc dec : Key, (inc = Key.Add ∨ inc = Key.Equal) →
      (dec = Key.Subtract ∨ dec = Key.Hyphen) →
      |handleKeyWith roundBinary32 (handleKeyWith roundBinary32 rot (Event.KeyPressed inc))
          (Event.KeyPressed dec) - rot| ≤ ((1 + 1 / 2 ^ 24) ^ 2 - 1) * |rot| ∧
        handleKey (handleKey rot (Event.KeyPressed inc)) (Event.KeyPressed dec) = rot ∧
        ∀ st : Sim ℚ,
          (pollEvents st [Event.KeyPressed inc, Event.KeyPressed dec]).rotationMultiplier
            = st.rotationMultiplier) ∧
    (∀ rnd : ℚ → ℚ, handleKeyWith rnd rot (Event.KeyPressed Key.Other) = rot ∧
      handleKeyWith rnd rot Event.Other = rot ∧ handleKeyWith rnd rot Event.Closed = rot) := by
  have hc : roundBinary32 1.2 ≠ 0 := by
    rw [roundBinary32_literal_12]
    norm_num
  have herr := roundTrip_error roundBinary32 (1 / 2 ^ 24) (by norm_num) roundBinary32_error
    rot (roundBinary32 1.2) hc
  refine ⟨?_, fun rnd => ⟨rfl, rfl, rfl⟩⟩
  intro inc dec hi hd
  refine ⟨?_, ?_, fun st => (increase_then_decrease_exact st).1 inc dec hi hd⟩
  · rcases hi with rfl | rfl <;> rcases hd with rfl | rfl <;> exact herr
  · rcases hi with rfl | rfl <;> rcases hd with rfl | rfl <;>
      simp [handleKey, handleKeyWith, handleKey_mul_div]

/-- Instance: `rotationMultiplier = 15`, keys `Equal` then `Hyphen`. -/
theorem increase_then_decrease_rounded_witness :
    |handleKeyWith roundBinary32 (handleKeyWith roundBinary32 15 (Event.KeyPressed Key.Equal))
        (Event.KeyPressed Key.Hyphen) - 15| ≤ ((1 + 1 / 2 ^ 24) ^ 2 - 1) * |(15 : ℚ)| ∧
      handleKey (handleKey (15 : ℚ) (Event.KeyPressed Key.Equal))
        (Event.KeyPressed Key.Hyphen) = 15 :=
  ⟨((increase_then_decrease_rounded 15).1 Key.Equal Key.Hyphen (Or.inr rfl) (Or.inr rfl)).1,
    ((increase_then_decrease_rounded 15).1 Key.Equal Key.Hyphen (Or.inr rfl) (Or.inr rfl)).2.1⟩

/-! ## The angle update under binary32 rounding -/

theorem round_compose (rnd : ℚ → ℚ) (u : ℚ) (hu : 0 ≤ u)
    (hrnd : ∀ x, |rnd x - x| ≤ u * |x|) (a b : ℚ) (j : Nat)
    (h : |a - b| ≤ ((1 + u) ^ j - 1) * |b|) :
    |rnd a - b| ≤ ((1 + u) ^ (j + 1) - 1) * |b| := by
  have ha : |a| ≤ (1 + u) ^ j * |b| := by
    have := abs_sub_abs_le_abs_sub a b
    linarith
  have h1 := hrnd a
  have h2 : u * |a| ≤ u * ((1 + u) ^ j * |b|) := mul_le_mul_of_nonneg_left ha hu
  calc |rnd a - b| = |(rnd a - a) + (a - b)| := by ring_nf
    _ ≤ |rnd a - a| + |a - b| := abs_add _ _
    _ ≤ u * ((1 + u) ^ j * |b|) + ((1 + u) ^ j - 1) * |b| := by linarith
    _ = ((1 + u) ^ (j + 1) - 1) * |b| := by ring

theorem round_zero (rnd : ℚ → ℚ) (u : ℚ) (hrnd : ∀ x, |rnd x - x| ≤ u * |x|) : rnd 0 = 0 := by
  have h := hrnd 0
  simp only [sub_zero, abs_zero, mul_zero] at h
  exact abs_eq_zero.mp (le_antisymm h (abs_nonneg _))

theorem increment_error (rnd : ℚ → ℚ) (u : ℚ) (hu : 0 ≤ u)
    (hrnd : ∀ x, |rnd x - x| ≤ u * |x|) (sp d : ℚ) :
    |rnd (rnd (rnd (sp + rnd (0 * rnd 0.02)) * d) * 1) - sp * d|
      ≤ ((1 + u) ^ 3 - 1) * |sp * d| := by
  rw [zero_mul, round_zero rnd u hrnd, add_zero, mul_one]
  have h1 : |rnd sp - sp| ≤ ((1 + u) ^ 1 - 1) * |sp| := by
    have := hrnd sp
    simpa using this
  have h2 : |rnd sp * d - sp * d| ≤ ((1 + u) ^ 1 - 1) * |sp * d| := by
    rw [← sub_mul, abs_mul, abs_mul, ← mul_assoc]
    exact mul_le_mul_of_nonneg_right h1 (abs_nonneg d)
  exact round_compose rnd u hu hrnd _ _ 2 (round_compose rnd u hu hrnd _ _ 1 h2)

theorem iterateUpdate_speed (rnd : ℚ → ℚ) (jitter : Nat → ℚ) (rot : ℚ) (s : Star ℚ)
    (n : Nat) : (iterateUpdate rnd jitter rot n s).speed = s.speed := by
  induction n with
  | zero => rfl
  | succ k ih => simpa [iterateUpdate, updateAngleWith] using ih

theorem iterateUpdate_angle_succ (rnd : ℚ → ℚ) (jitter : Nat → ℚ) (rot : ℚ) (s : Star ℚ)
    (n : Nat) :
    (iterateUpdate rnd jitter rot (n + 1) s).angle =
      rnd ((iterateUpdate rnd jitter rot n s).angle +
        rnd (rnd (rnd ((iterateUpdate rnd jitter rot n s).speed + rnd (jitter n * rnd 0.02))
          * rnd TIME_STEP) * rot)) := rfl

theorem accumulate_error (rnd : ℚ → ℚ) (u : ℚ) (hu : 0 ≤ u)
    (hrnd : ∀ x, |rnd x - x| ≤ u * |x|) (s : Star ℚ) (n : Nat) :
    |(iterateUpdate rnd (fun _ => 0) 1 n s).angle
        - (s.angle + (n : ℚ) * s.speed * rnd TIME_STEP)|
      ≤ ((1 + u) ^ (n + 3) - 1) * (|s.angle| + (n : ℚ) * |s.speed * rnd TIME_STEP|) := by
  have hw : (1 : ℚ) ≤ 1 + u := by linarith
  induction n with
  | zero =>
    have h3 : (0 : ℚ) ≤ (1 + u) ^ 3 - 1 := sub_nonneg.mpr (one_le_pow₀ hw)
    simpa [iterateUpdate] using mul_nonneg h3 (abs_nonneg s.angle)
  | succ k ih =>
    rw [iterateUpdate_angle_succ, iterateUpdate_speed]
    set a := (iterateUpdate rnd (fun _ => 0) 1 k s).angle with ha
    set D := rnd TIME_STEP with hD
    set B := |s.speed * D| with hB
    set A := |s.angle| with hA
    set δ := rnd (rnd (rnd (s.speed + rnd (0 * rnd 0.02)) * D) * 1) with hδ
    have hinc : |δ - s.speed * D| ≤ ((1 + u) ^ 3 - 1) * B :=
      increment_error rnd u hu hrnd s.speed D
    have hB0 : 0 ≤ B := abs_nonneg _
    have hA0 : 0 ≤ A := abs_nonneg _
    have hk0 : (0 : ℚ) ≤ k := Nat.cast_nonneg k
    have hT : |s.angle + (k : ℚ) * s.speed * D| ≤ A + k * B := by
      calc |s.angle + (k : ℚ) * s.speed * D| ≤ |s.angle| + |(k : ℚ) * s.speed * D| := abs_add _ _
        _ = A + k * B := by rw [mul_assoc, abs_mul, abs_of_nonneg hk0]
    have haT : |a| ≤ A + k * B + ((1 + u) ^ (k + 3) - 1) * (A + k * B) := by
      have := abs_sub_abs_le_abs_sub a (s.angle + (k : ℚ) * s.speed * D)
      linarith
    have hδa : |δ| ≤ (1 + u) ^ 3 * B := by
      have := abs_sub_abs_le_abs_sub δ (s.speed * D)
      linarith
    have hsum : |a + δ| ≤ (1 + u) ^ (k + 3) * (A + k * B) + (1 + u) ^ 3 * B := by
      calc |a + δ| ≤ |a| + |δ| := abs_add _ _
        _ ≤ (1 + u) ^ (k + 3) * (A + k * B) + (1 + u) ^ 3 * B := by linarith
    have hr := hrnd (a + δ)
    have hr2 : u * |a + δ| ≤ u * ((1 + u) ^ (k + 3) * (A + k * B) + (1 + u) ^ 3 * B) :=
      mul_le_mul_of_nonneg_left hsum hu
    have hpow : (1 + u) ^ 4 ≤ (1 + u) ^ (k + 1 + 3) := pow_le_pow_right₀ hw (by omega)
    have hpowB : (1 + u) ^ 4 * B ≤ (1 + u) ^ (k + 1 + 3) * B :=
      mul_le_mul_of_nonneg_right hpow hB0
    have hsplit : rnd (a + δ) - (s.angle + ((k + 1 : Nat) : ℚ) * s.speed * D)
        = (rnd (a + δ) - (a + δ)) + (a - (s.angle + (k : ℚ) * s.speed * D))
          + (δ - s.speed * D) := by
      push_cast
      ring
    rw [hsplit]
    calc |(rnd (a + δ) - (a + δ)) + (a - (s.angle + (k : ℚ) * s.speed * D))
            + (δ - s.speed * D)|
        ≤ |rnd (a + δ) - (a + δ)| + |a - (s.angle + (k : ℚ) * s.speed * D)|
            + |δ - s.speed * D| := abs_add_three _ _ _
      _ ≤ u * ((1 + u) ^ (k + 3) * (A + k * B) + (1 + u) ^ 3 * B)
            + ((1 + u) ^ (k + 3) - 1) * (A + k * B) + ((1 + u) ^ 3 - 1) * B := by linarith
      _ = ((1 + u) ^ (k + 1 + 3) - 1) * (A + k * B) + ((1 + u) ^ 4 - 1) * B := by ring
      _ ≤ ((1 + u) ^ (k + 1 + 3) - 1) * (A + ((k + 1 : Nat) : ℚ) * B) := by
          push_cast
          nlinarith

theorem iterateStar_eq_iterateUpdate (m : LibM ℚ) (jitter : Nat → ℚ) (rot cx cy : ℚ)
    (s : Star ℚ) (n : Nat) :
    iterateStar m jitter rot cx cy n s = iterateUpdate id jitter rot n s := by
  induction n with
  | zero => rfl
  | succ k ih =>
    show (starStep m (iterateStar m jitter rot cx cy k s) (jitter k) rot cx cy).1 = _
    rw [ih]
    rfl

/-- C3 (counterexample): under binary32 rounding the particle at `(1, 0, 0)`, of radius
1, angle 0 and speed `35 / 16` (the speed line 121 assigns at radius 1), has after seven
frames with `rotationMultiplier = 1` and zero jitter the angle `16441671 / 134217728`.
The value of `initialAngle + 7 * speed * TIME_STEP` is `2104534075 / 17179869184` with
`TIME_STEP` the `float` constant and `49 / 400` with `TIME_STEP = 0.008`; the `float`
nearest to either is `2055209 / 16777216`, one unit in the last place above the stored
angle. -/
theorem angle_after_frames_not_exact :
    (iterateUpdate roundBinary32 (fun _ => 0) 1 7
        (Star.mk 1 0 0 1 0 (35 / 16) ⟨255, 254, 243, 229⟩ true)).angle
      = 16441671 / 134217728 ∧
    (0 : ℚ) + 7 * (35 / 16) * roundBinary32 TIME_STEP = 2104534075 / 17179869184 ∧
    (0 : ℚ) + 7 * (35 / 16) * TIME_STEP = 49 / 400 ∧
    roundBinary32 (2104534075 / 17179869184) = 2055209 / 16777216 ∧
    roundBinary32 (49 / 400) = 2055209 / 16777216 ∧
    (16441671 / 134217728 : ℚ) ≠ 2104534075 / 17179869184 ∧
    (16441671 / 134217728 : ℚ) ≠ 49 / 400 ∧
    (16441671 / 134217728 : ℚ) ≠ 2055209 / 16777216 := by
  have e1 : roundBinary32 (35 / 16) = 35 / 16 := by
    rw [roundBinary32_eval _ (1) 9175040 (by norm_num [abs_of_pos]) (by norm_num [abs_of_pos])
      (by norm_num [roundNearestEven])]
    norm_num
  have e2 : roundBinary32 (300647725 / 17179869184) = 9395241 / 536870912 := by
    rw [roundBinary32_eval _ (-6) 9395241 (by norm_num [abs_of_pos]) (by norm_num [abs_of_pos])
      (by norm_num [roundNearestEven])]
    norm_num
  have e3 : roundBinary32 (9395241 / 536870912) = 9395241 / 536870912 := by
    rw [roundBinary32_eval _ (-6) 9395241 (by norm_num [abs_of_pos]) (by norm_num [abs_of_pos])
      (by norm_num [roundNearestEven])]
    norm_num
  have e4 : roundBinary32 (9395241 / 268435456) = 9395241 / 268435456 := by
    rw [roundBinary32_eval _ (-5) 9395241 (by norm_num [abs_of_pos]) (by norm_num [abs_of_pos])
      (by norm_num [roundNearestEven])]
    norm_num
  have e5 : roundBinary32 (28185723 / 536870912) = 7046431 / 134217728 := by
    rw [roundBinary32_eval _ (-5) 14092862 (by norm_num [abs_of_pos]) (by norm_num [abs_of_pos])
      (by norm_num [roundNearestEven])]
    norm_num
  have e6 : roundBinary32 (37580965 / 536870912) = 9395241 / 134217728 := by
    rw [roundBinary32_eval _ (-4) 9395241 (by norm_num [abs_of_pos]) (by norm_num [abs_of_pos])
      (by norm_num [roundNearestEven])]
    norm_num
  have e7 : roundBinary32 (46976205 / 536870912) = 11744051 / 134217728 := by
    rw [roundBinary32_eval _ (-4) 11744051 (by norm_num [abs_of_pos]) (by norm_num [abs_of_pos])
      (by norm_num [roundNearestEven])]
    norm_num
  have e8 : roundBinary32 (56371445 / 536870912) = 14092861 / 134217728 := by
    rw [roundBinary32_eval _ (-4) 14092861 (by norm_num [abs_of_pos]) (by norm_num [abs_of_pos])
      (by norm_num [roundNearestEven])]
    norm_num
  have e9 : roundBinary32 (65766685 / 536870912) = 16441671 / 134217728 := by
    rw [roundBinary32_eval _ (-4) 16441671 (by norm_num [abs_of_pos]) (by norm_num [abs_of_pos])
      (by norm_num [roundNearestEven])]
    norm_num
  have e10 : roundBinary32 (2104534075 / 17179869184) = 2055209 / 16777216 := by
    rw [roundBinary32_eval _ (-4) 16441672 (by norm_num [abs_of_pos]) (by norm_num [abs_of_pos])
      (by norm_num [roundNearestEven])]
    norm_num
  have e11 : roundBinary32 (49 / 400) = 2055209 / 16777216 := by
    rw [roundBinary32_eval _ (-4) 16441672 (by norm_num [abs_of_pos]) (by norm_num [abs_of_pos])
      (by norm_num [roundNearestEven])]
    norm_num
  refine ⟨?_, ?_, by norm_num [TIME_STEP], e10, e11, by norm_num, by norm_num,
    by norm_num⟩
  · simp only [iterateUpdate, updateAngleWith, roundBinary32_literal_timeStep, zero_mul,
      roundBinary32_zero, add_zero, mul_one, zero_add]
    norm_num [e1, e2, e3, e4, e5, e6, e7, e8, e9]
  · rw [roundBinary32_literal_timeStep]
    norm_num

/-- C3 (amended): under binary32 rounding, after `n` applications of the per-frame update
with `rotationMultiplier = 1` and zero jitter, the angle differs from
`initialAngle + n * speed * TIME_STEP` (`TIME_STEP` being the `float` constant) by at most
the accumulated rounding error
`((1 + 2^-24)^(n+3) - 1) * (|initialAngle| + n * |speed * TIME_STEP|)`, and in exact
arithmetic it is equal to it; in both the speed is the one the particle started with. -/
theorem angle_after_frames_rounded (s : Star ℚ) (n : Nat) :
    |(iterateUpdate roundBinary32 (fun _ => 0) 1 n s).angle
        - (s.angle + (n : ℚ) * s.speed * roundBinary32 TIME_STEP)|
      ≤ ((1 + 1 / 2 ^ 24) ^ (n + 3) - 1)
          * (|s.angle| + (n : ℚ) * |s.speed * roundBinary32 TIME_STEP|) ∧
    (iterateUpdate roundBinary32 (fun _ => 0) 1 n s).speed = s.speed ∧
    (∀ (m : LibM ℚ) (cx cy : ℚ),
      (iterateStar m (fun _ => 0) 1 cx cy n s).angle = s.angle + (n : ℚ) * s.speed * TIME_STEP ∧
      (iterateStar m (fun _ => 0) 1 cx cy n s).speed = s.speed) :=
  ⟨accumulate_error roundBinary32 (1 / 2 ^ 24) (by norm_num) roundBinary32_error s n,
    iterateUpdate_speed _ _ _ s n, fun m cx cy => angle_after_frames_exact m s cx cy n⟩

/-! ## The orbital speed under binary32 rounding -/

theorem roundBinary32_literal_06 : roundBinary32 0.6 = 5033165 / 8388608 := by
  rw [roundBinary32_eval 0.6 (-1) 10066330 (by norm_num [abs_of_pos]) (by norm_num [abs_of_pos])
    (by norm_num [roundNearestEven])]
  norm_num

theorem roundBinary32_literal_35 : roundBinary32 3.5 = 7 / 2 := by
  rw [roundBinary32_eval 3.5 (1) 14680064 (by norm_num [abs_of_pos]) (by norm_num [abs_of_pos])
    (by norm_num [roundNearestEven])]
  norm_num

theorem speedFloat_one :
    orbitalSpeedWith roundBinary32 roundBinary32 (sqrtRound 23) (1) = 35 / 16 := by
  have hs : sqrtRound 23 (1) = 1 := by
    rw [sqrtRound_eval 23 _ (0) 8388608 (by norm_num) (by norm_num)
      (sqrtNearest_down _ 8388608 (by norm_num) (by norm_num))]
    norm_num
  have e1 : roundBinary32 (13421773 / 8388608) = 13421773 / 8388608 := by
    rw [roundBinary32_eval _ (0) 13421773 (by norm_num [abs_of_pos]) (by norm_num [abs_of_pos])
      (by norm_num [roundNearestEven])]
    norm_num
  have e2 : roundBinary32 (29360128 / 13421773) = 35 / 16 := by
    rw [roundBinary32_eval _ (1) 9175040 (by norm_num [abs_of_pos]) (by norm_num [abs_of_pos])
      (by norm_num [roundNearestEven])]
    norm_num
  have e3 : roundBinary32 (35 / 16) = 35 / 16 := by
    rw [roundBinary32_eval _ (1) 9175040 (by norm_num [abs_of_pos]) (by norm_num [abs_of_pos])
      (by norm_num [roundNearestEven])]
    norm_num
  simp only [orbitalSpeedWith, hs, roundBinary32_literal_06, roundBinary32_literal_35]
  norm_num [e1, e2, e3]

theorem speedFloat_one_succ :
    orbitalSpeedWith roundBinary32 roundBinary32 (sqrtRound 23) (8388609 / 8388608) = 35 / 16 := by
  have hs : sqrtRound 23 (8388609 / 8388608) = 1 := by
    rw [sqrtRound_eval 23 _ (0) 8388608 (by norm_num) (by norm_num)
      (sqrtNearest_down _ 8388608 (by norm_num) (by norm_num))]
    norm_num
  have e1 : roundBinary32 (13421773 / 8388608) = 13421773 / 8388608 := by
    rw [roundBinary32_eval _ (0) 13421773 (by norm_num [abs_of_pos]) (by norm_num [abs_of_pos])
      (by norm_num [roundNearestEven])]
    norm_num
  have e2 : roundBinary32 (29360128 / 13421773) = 35 / 16 := by
    rw [roundBinary32_eval _ (1) 9175040 (by norm_num [abs_of_pos]) (by norm_num [abs_of_pos])
      (by norm_num [roundNearestEven])]
    norm_num
  have e3 : roundBinary32 (35 / 16) = 35 / 16 := by
    rw [roundBinary32_eval _ (1) 9175040 (by norm_num [abs_of_pos]) (by norm_num [abs_of_pos])
      (by norm_num [roundNearestEven])]
    norm_num
  simp only [orbitalSpeedWith, hs, roundBinary32_literal_06, roundBinary32_literal_35]
  norm_num [e1, e2, e3]

theorem speedFloat_120 :
    orbitalSpeedWith roundBinary32 roundBinary32 (sqrtRound 23) (120) = 2541023 / 8388608 := by
  have hs : sqrtRound 23 (120) = 11486575 / 1048576 := by
    rw [sqrtRound_eval 23 _ (3) 11486575 (by norm_num) (by norm_num)
      (sqrtNearest_up _ 11486574 (by norm_num) (by norm_num))]
    norm_num
  have e1 : roundBinary32 (96925765 / 8388608) = 12115721 / 1048576 := by
    rw [roundBinary32_eval _ (3) 12115721 (by norm_num [abs_of_pos]) (by norm_num [abs_of_pos])
      (by norm_num [roundNearestEven])]
    norm_num
  have e2 : roundBinary32 (3670016 / 12115721) = 2541023 / 8388608 := by
    rw [roundBinary32_eval _ (-2) 10164092 (by norm_num [abs_of_pos]) (by norm_num [abs_of_pos])
      (by norm_num [roundNearestEven])]
    norm_num
  have e3 : roundBinary32 (2541023 / 8388608) = 2541023 / 8388608 := by
    rw [roundBinary32_eval _ (-2) 10164092 (by norm_num [abs_of_pos]) (by norm_num [abs_of_pos])
      (by norm_num [roundNearestEven])]
    norm_num
  simp only [orbitalSpeedWith, hs, roundBinary32_literal_06, roundBinary32_literal_35]
  norm_num [e1, e2, e3]

theorem speedFloat_120_succ :
    orbitalSpeedWith roundBinary32 roundBinary32 (sqrtRound 23) (7864321 / 65536) = 2541023 / 8388608 := by
  have hs : sqrtRound 23 (7864321 / 65536) = 11486575 / 1048576 := by
    rw [sqrtRound_eval 23 _ (3) 11486575 (by norm_num) (by norm_num)
      (sqrtNearest_down _ 11486575 (by norm_num) (by norm_num))]
    norm_num
  have e1 : roundBinary32 (96925765 / 8388608) = 12115721 / 1048576 := by
    rw [roundBinary32_eval _ (3) 12115721 (by norm_num [abs_of_pos]) (by norm_num [abs_of_pos])
      (by norm_num [roundNearestEven])]
    norm_num
  have e2 : roundBinary32 (3670016 / 12115721) = 2541023 / 8388608 := by
    rw [roundBinary32_eval _ (-2) 10164092 (by norm_num [abs_of_pos]) (by norm_num [abs_of_pos])
      (by norm_num [roundNearestEven])]
    norm_num
  have e3 : roundBinary32 (2541023 / 8388608) = 2541023 / 8388608 := by
    rw [roundBinary32_eval _ (-2) 10164092 (by norm_num [abs_of_pos]) (by norm_num [abs_of_pos])
      (by norm_num [roundNearestEven])]
    norm_num
  simp only [orbitalSpeedWith, hs, roundBinary32_literal_06, roundBinary32_literal_35]
  norm_num [e1, e2, e3]

theorem speedDouble_one :
    orbitalSpeedWith roundBinary32 roundBinary64 (sqrtRound 52) (1) = 35 / 16 := by
  have hs : sqrtRound 52 (1) = 1 := by
    rw [sqrtRound_eval 52 _ (0) 4503599627370496 (by norm_num) (by norm_num)
      (sqrtNearest_down _ 4503599627370496 (by norm_num) (by norm_num))]
    norm_num
  have e1 : roundBinary64 (13421773 / 8388608) = 13421773 / 8388608 := by
    unfold roundBinary64
    rw [roundFrac_eval 52 _ (0) 7205759511166976 (by norm_num [abs_of_pos]) (by norm_num [abs_of_pos])
      (by norm_num [roundNearestEven])]
    norm_num
  have e2 : roundBinary64 (29360128 / 13421773) = 4925812019036161 / 2251799813685248 := by
    unfold roundBinary64
    rw [roundFrac_eval 52 _ (1) 4925812019036161 (by norm_num [abs_of_pos]) (by norm_num [abs_of_pos])
      (by norm_num [roundNearestEven])]
    norm_num
  have e3 : roundBinary32 (4925812019036161 / 2251799813685248) = 35 / 16 := by
    rw [roundBinary32_eval _ (1) 9175040 (by norm_num [abs_of_pos]) (by norm_num [abs_of_pos])
      (by norm_num [roundNearestEven])]
    norm_num
  simp only [orbitalSpeedWith, hs, roundBinary32_literal_06, roundBinary32_literal_35]
  norm_num [e1, e2, e3]

theorem speedDouble_one_succ :
    orbitalSpeedWith roundBinary32 roundBinary64 (sqrtRound 52) (8388609 / 8388608) = 35 / 16 := by
  have hs : sqrtRound 52 (8388609 / 8388608) = 562949986975743 / 562949953421312 := by
    rw [sqrtRound_eval 52 _ (0) 4503599895805944 (by norm_num) (by norm_num)
      (sqrtNearest_down _ 4503599895805944 (by norm_num) (by norm_num))]
    norm_num
  have e1 : roundBinary64 (900719972450303 / 562949953421312) = 900719972450303 / 562949953421312 := by
    unfold roundBinary64
    rw [roundFrac_eval 52 _ (0) 7205759779602424 (by norm_num [abs_of_pos]) (by norm_num [abs_of_pos])
      (by norm_num [roundNearestEven])]
    norm_num
  have e2 : roundBinary64 (1970324836974592 / 900719972450303) = 4925811835535379 / 2251799813685248 := by
    unfold roundBinary64
    rw [roundFrac_eval 52 _ (1) 4925811835535379 (by norm_num [abs_of_pos]) (by norm_num [abs_of_pos])
      (by norm_num [roundNearestEven])]
    norm_num
  have e3 : roundBinary32 (4925811835535379 / 2251799813685248) = 35 / 16 := by
    rw [roundBinary32_eval _ (1) 9175040 (by norm_num [abs_of_pos]) (by norm_num [abs_of_pos])
      (by norm_num [roundNearestEven])]
    norm_num
  simp only [orbitalSpeedWith, hs, roundBinary32_literal_06, roundBinary32_literal_35]
  norm_num [e1, e2, e3]

theorem speedDouble_120_pred :
    orbitalSpeedWith roundBinary32 roundBinary64 (sqrtRound 52) (15728641 / 131072) = 2541023 / 8388608 := by
  have hs : sqrtRound 52 (15728641 / 131072) = 6166807960744239 / 562949953421312 := by
    rw [sqrtRound_eval 52 _ (3) 6166807960744239 (by norm_num) (by norm_num)
      (sqrtNearest_down _ 6166807960744239 (by norm_num) (by norm_num))]
    norm_num
  have e1 : roundBinary64 (6504577946218799 / 562949953421312) = 6504577946218799 / 562949953421312 := by
    unfold roundBinary64
    rw [roundFrac_eval 52 _ (3) 6504577946218799 (by norm_num [abs_of_pos]) (by norm_num [abs_of_pos])
      (by norm_num [roundNearestEven])]
    norm_num
  have e2 : roundBinary64 (1970324836974592 / 6504577946218799) = 1364201378623793 / 4503599627370496 := by
    unfold roundBinary64
    rw [roundFrac_eval 52 _ (-2) 5456805514495172 (by norm_num [abs_of_pos]) (by norm_num [abs_of_pos])
      (by norm_num [roundNearestEven])]
    norm_num
  have e3 : roundBinary32 (1364201378623793 / 4503599627370496) = 2541023 / 8388608 := by
    rw [roundBinary32_eval _ (-2) 10164092 (by norm_num [abs_of_pos]) (by norm_num [abs_of_pos])
      (by norm_num [roundNearestEven])]
    norm_num
  simp only [orbitalSpeedWith, hs, roundBinary32_literal_06, roundBinary32_literal_35]
  norm_num [e1, e2, e3]

theorem speedDouble_120_succ :
    orbitalSpeedWith roundBinary32 roundBinary64 (sqrtRound 52) (7864321 / 65536) = 2541023 / 8388608 := by
  have hs : sqrtRound 52 (7864321 / 65536) = 6166808156781769 / 562949953421312 := by
    rw [sqrtRound_eval 52 _ (3) 6166808156781769 (by norm_num) (by norm_num)
      (sqrtNearest_down _ 6166808156781769 (by norm_num) (by norm_num))]
    norm_num
  have e1 : roundBinary64 (6504578142256329 / 562949953421312) = 6504578142256329 / 562949953421312 := by
    unfold roundBinary64
    rw [roundFrac_eval 52 _ (3) 6504578142256329 (by norm_num [abs_of_pos]) (by norm_num [abs_of_pos])
      (by norm_num [roundNearestEven])]
    norm_num
  have e2 : roundBinary64 (1970324836974592 / 6504578142256329) = 5456805350035825 / 18014398509481984 := by
    unfold roundBinary64
    rw [roundFrac_eval 52 _ (-2) 5456805350035825 (by norm_num [abs_of_pos]) (by norm_num [abs_of_pos])
      (by norm_num [roundNearestEven])]
    norm_num
  have e3 : roundBinary32 (5456805350035825 / 18014398509481984) = 2541023 / 8388608 := by
    rw [roundBinary32_eval _ (-2) 10164092 (by norm_num [abs_of_pos]) (by norm_num [abs_of_pos])
      (by norm_num [roundNearestEven])]
    norm_num
  simp only [orbitalSpeedWith, hs, roundBinary32_literal_06, roundBinary32_literal_35]
  norm_num [e1, e2, e3]

theorem speedDouble_693 :
    orbitalSpeedWith roundBinary32 roundBinary64 (sqrtRound 52) (693) = 2180891 / 16777216 := by
  have hs : sqrtRound 52 (693) = 1852449672433525 / 70368744177664 := by
    rw [sqrtRound_eval 52 _ (4) 7409798689734100 (by norm_num) (by norm_num)
      (sqrtNearest_down _ 7409798689734100 (by norm_num) (by norm_num))]
    norm_num
  have e1 : roundBinary64 (1894670920617845 / 70368744177664) = 1894670920617845 / 70368744177664 := by
    unfold roundBinary64
    rw [roundFrac_eval 52 _ (4) 7578683682471380 (by norm_num [abs_of_pos]) (by norm_num [abs_of_pos])
      (by norm_num [roundNearestEven])]
    norm_num
  have e2 : roundBinary64 (246290604621824 / 1894670920617845) = 1170856915709665 / 9007199254740992 := by
    unfold roundBinary64
    rw [roundFrac_eval 52 _ (-3) 4683427662838660 (by norm_num [abs_of_pos]) (by norm_num [abs_of_pos])
      (by norm_num [roundNearestEven])]
    norm_num
  have e3 : roundBinary32 (1170856915709665 / 9007199254740992) = 2180891 / 16777216 := by
    rw [roundBinary32_eval _ (-3) 8723564 (by norm_num [abs_of_pos]) (by norm_num [abs_of_pos])
      (by norm_num [roundNearestEven])]
    norm_num
  simp only [orbitalSpeedWith, hs, roundBinary32_literal_06, roundBinary32_literal_35]
  norm_num [e1, e2, e3]

/-- C6 (counterexample): under binary32 rounding the speed that line 121 computes is the
same at distinct radii, so `speed(r2) < speed(r1)` fails for some `0 < r1 < r2`.  At the
`float` radii `1` and `1 + 2^-23` (the next `float`) the speed is `35 / 16` with either
overload of `sqrt`.  At `120` and `120 + 2^-16` it is `2541023 / 8388608`
(`0x1.362ef8p-2`) with `float sqrt(float)`, and at `120 + 2^-17` and `120 + 2^-16` it is
that value with `double sqrt(double)`. -/
theorem orbitalSpeed_ties :
    ((0 : ℚ) < 1 ∧ (1 : ℚ) < 8388609 / 8388608 ∧
      roundBinary32 (8388609 / 8388608) = 8388609 / 8388608 ∧
      orbitalSpeedWith roundBinary32 roundBinary32 (sqrtRound 23) 1 = 35 / 16 ∧
      orbitalSpeedWith roundBinary32 roundBinary32 (sqrtRound 23) (8388609 / 8388608) = 35 / 16 ∧
      ¬ orbitalSpeedWith roundBinary32 roundBinary32 (sqrtRound 23) (8388609 / 8388608)
        < orbitalSpeedWith roundBinary32 roundBinary32 (sqrtRound 23) 1 ∧
      orbitalSpeedWith roundBinary32 roundBinary64 (sqrtRound 52) 1 = 35 / 16 ∧
      orbitalSpeedWith roundBinary32 roundBinary64 (sqrtRound 52) (8388609 / 8388608) = 35 / 16 ∧
      ¬ orbitalSpeedWith roundBinary32 roundBinary64 (sqrtRound 52) (8388609 / 8388608)
        < orbitalSpeedWith roundBinary32 roundBinary64 (sqrtRound 52) 1) ∧
    ((0 : ℚ) < 120 ∧ (120 : ℚ) < 15728641 / 131072 ∧
      (15728641 / 131072 : ℚ) < 7864321 / 65536 ∧
      roundBinary32 (15728641 / 131072) = 15728641 / 131072 ∧
      roundBinary32 (7864321 / 65536) = 7864321 / 65536 ∧
      orbitalSpeedWith roundBinary32 roundBinary32 (sqrtRound 23) 120 = 2541023 / 8388608 ∧
      orbitalSpeedWith roundBinary32 roundBinary32 (sqrtRound 23) (7864321 / 65536)
        = 2541023 / 8388608 ∧
      ¬ orbitalSpeedWith roundBinary32 roundBinary32 (sqrtRound 23) (7864321 / 65536)
        < orbitalSpeedWith roundBinary32 roundBinary32 (sqrtRound 23) 120 ∧
      orbitalSpeedWith roundBinary32 roundBinary64 (sqrtRound 52) (15728641 / 131072)
        = 2541023 / 8388608 ∧
      orbitalSpeedWith roundBinary32 roundBinary64 (sqrtRound 52) (7864321 / 65536)
        = 2541023 / 8388608 ∧
      ¬ orbitalSpeedWith roundBinary32 roundBinary64 (sqrtRound 52) (7864321 / 65536)
        < orbitalSpeedWith roundBinary32 roundBinary64 (sqrtRound 52) (15728641 / 131072)) := by
  have f1 : roundBinary32 (8388609 / 8388608) = 8388609 / 8388608 := by
    rw [roundBinary32_eval _ 0 8388609 (by norm_num [abs_of_pos]) (by norm_num [abs_of_pos])
      (by norm_num [roundNearestEven])]
    norm_num
  have f2 : roundBinary32 (15728641 / 131072) = 15728641 / 131072 := by
    rw [roundBinary32_eval _ 6 15728641 (by norm_num [abs_of_pos]) (by norm_num [abs_of_pos])
      (by norm_num [roundNearestEven])]
    norm_num
  have f3 : roundBinary32 (7864321 / 65536) = 7864321 / 65536 := by
    rw [roundBinary32_eval _ 6 15728642 (by norm_num [abs_of_pos]) (by norm_num [abs_of_pos])
      (by norm_num [roundNearestEven])]
    norm_num
  refine ⟨⟨by norm_num, by norm_num, f1, speedFloat_one, speedFloat_one_succ, ?_,
    speedDouble_one, speedDouble_one_succ, ?_⟩,
    ⟨by norm_num, by norm_num, by norm_num, f2, f3, speedFloat_120, speedFloat_120_succ, ?_,
      speedDouble_120_pred, speedDouble_120_succ, ?_⟩⟩
  · rw [speedFloat_one, speedFloat_one_succ]
    exact lt_irrefl _
  · rw [speedDouble_one, speedDouble_one_succ]
    exact lt_irrefl _
  · rw [speedFloat_120, speedFloat_120_succ]
    exact lt_irrefl _
  · rw [speedDouble_120_pred, speedDouble_120_succ]
    exact lt_irrefl _

/-- C6 (amended): in exact arithmetic the orbital speed
`speed(radius) = 3.5 / (sqrt(radius) + 0.6)` is strictly decreasing in the radius: for
all radii `0 < r1 < r2`, `speed(r2) < speed(r1)`, the square root being any non-negative,
strictly increasing function (such as the real square root).  Under binary32 rounding,
with the correctly rounded square root of the library, the speed line 121 computes is
non-increasing: for all radii `0 < r1 < r2`, `speed(r2) ≤ speed(r1)`, with either
overload of `sqrt`. -/
theorem orbitalSpeed_nonincreasing (K : Type) [LinearOrderedField K] :
    (∀ m : LibM K, (∀ v : K, 0 ≤ v → 0 ≤ m.sqrt v) →
      (∀ a b : K, 0 ≤ a → a < b → m.sqrt a < m.sqrt b) →
      ∀ r1 r2 : K, 0 < r1 → r1 < r2 → orbitalSpeed m r2 < orbitalSpeed m r1) ∧
    (∀ r1 r2 : ℚ, 0 < r1 → r1 < r2 →
      orbitalSpeedWith roundBinary32 roundBinary32 (sqrtRound 23) r2
          ≤ orbitalSpeedWith roundBinary32 roundBinary32 (sqrtRound 23) r1 ∧
        orbitalSpeedWith roundBinary32 roundBinary64 (sqrtRound 52) r2
          ≤ orbitalSpeedWith roundBinary32 roundBinary64 (sqrtRound 52) r1) := by
  refine ⟨fun m hnn hmono r1 r2 h1 h12 => orbitalSpeed_strict_exact m hnn hmono r1 r2 h1 h12,
    ?_⟩
  intro r1 r2 _ h12
  have h35 : 0 ≤ roundBinary32 3.5 := roundBinary32_nonneg (by norm_num)
  have h06 : 0 < roundBinary32 0.6 := roundBinary32_pos (by norm_num)
  exact ⟨orbitalSpeedWith_antitone roundBinary32 roundBinary32 (sqrtRound 23)
      (fun _ _ h => roundBinary32_mono h) (fun _ _ h => roundBinary32_mono h)
      (fun _ h => roundBinary32_pos h) h35 h06 r1 r2 (sqrtRound_nonneg 23 r1)
      (sqrtRound_mono 23 h12.le),
    orbitalSpeedWith_antitone roundBinary32 roundBinary64 (sqrtRound 52)
      (fun _ _ h => roundBinary32_mono h) (fun _ _ h => roundBinary64_mono h)
      (fun _ h => roundBinary64_pos h) h35 h06 r1 r2 (sqrtRound_nonneg 52 r1)
      (sqrtRound_mono 52 h12.le)⟩

/-! ## The direction of the angle update under binary32 rounding -/

theorem roundBinary32_literal_002 : roundBinary32 0.02 = 5368709 / 268435456 := by
  rw [roundBinary32_eval 0.02 (-6) 10737418 (by norm_num [abs_of_pos]) (by norm_num [abs_of_pos])
    (by norm_num [roundNearestEven])]
  norm_num

theorem roundBinary32_literal_one : roundBinary32 1.0 = 1 := by
  rw [roundBinary32_eval 1.0 0 8388608 (by norm_num [abs_of_pos]) (by norm_num [abs_of_pos])
    (by norm_num [roundNearestEven])]
  norm_num

theorem roundBinary32_4096 : roundBinary32 4096 = 4096 := by
  rw [roundBinary32_eval 4096 12 8388608 (by norm_num [abs_of_pos]) (by norm_num [abs_of_pos])
    (by norm_num [roundNearestEven])]
  norm_num

theorem reachableWith_one_press : ReachableWith roundBinary32 (5033165 / 4194304) := by
  refine ⟨[Event.KeyPressed Key.Add], ?_⟩
  have e1 : roundBinary32 (5033165 / 4194304) = 5033165 / 4194304 := by
    rw [roundBinary32_eval _ 0 10066330 (by norm_num [abs_of_pos]) (by norm_num [abs_of_pos])
      (by norm_num [roundNearestEven])]
    norm_num
  simp only [List.foldl, handleKeyWith, roundBinary32_literal_one, roundBinary32_literal_12,
    one_mul, e1]

/-- Under binary32 rounding, a particle of speed `2180891 / 16777216` (the speed line 121
assigns at radius 693 with `double sqrt(double)`), the jitter sample `-7` and
`rotationMultiplier = 1`: from the angle `0.35f` the update gives a smaller angle; from the
angle `4096` it gives `4096` again, the negative increment being absorbed in the rounding
of the sum. -/
theorem updateAngle_binary32_examples :
    orbitalSpeedWith roundBinary32 roundBinary64 (sqrtRound 52) 693 = 2180891 / 16777216 ∧
    roundBinary32 0.35 = 11744051 / 33554432 ∧
    (updateAngleWith roundBinary32
      (Star.mk 693 0 0 693 (11744051 / 33554432) (2180891 / 16777216) ⟨255, 255, 255, 255⟩ true)
      (-7) 1).angle = 2935341 / 8388608 ∧
    (2935341 / 8388608 : ℚ) < 11744051 / 33554432 ∧
    (updateAngleWith roundBinary32
      (Star.mk 693 0 0 693 4096 (2180891 / 16777216) ⟨255, 255, 255, 255⟩ true)
      (-7) 1).angle = 4096 := by
  have e0 : roundBinary32 0.35 = 11744051 / 33554432 := by
    rw [roundBinary32_eval 0.35 (-2) 11744051 (by norm_num [abs_of_pos])
      (by norm_num [abs_of_pos]) (by norm_num [roundNearestEven])]
    norm_num
  have e1 : roundBinary32 ((-(37580963 / 268435456))) = (-(9395241 / 67108864)) := by
    rw [roundBinary32_eval _ (-3) (-9395241) (by norm_num [abs_of_neg]) (by norm_num [abs_of_neg])
      (by norm_num [roundNearestEven])]
    norm_num
  have e2 : roundBinary32 ((-(671677 / 67108864))) = (-(671677 / 67108864)) := by
    rw [roundBinary32_eval _ (-7) (-10746832) (by norm_num [abs_of_neg]) (by norm_num [abs_of_neg])
      (by norm_num [roundNearestEven])]
    norm_num
  have e3 : roundBinary32 ((-(5769661770995 / 72057594037927936))) = (-(2751189 / 34359738368)) := by
    rw [roundBinary32_eval _ (-14) (-11004756) (by norm_num [abs_of_neg]) (by norm_num [abs_of_neg])
      (by norm_num [roundNearestEven])]
    norm_num
  have e4 : roundBinary32 ((-(2751189 / 34359738368))) = (-(2751189 / 34359738368)) := by
    rw [roundBinary32_eval _ (-14) (-11004756) (by norm_num [abs_of_neg]) (by norm_num [abs_of_neg])
      (by norm_num [roundNearestEven])]
    norm_num
  have e5 : roundBinary32 (12023157035 / 34359738368) = 2935341 / 8388608 := by
    rw [roundBinary32_eval _ (-2) 11741364 (by norm_num [abs_of_pos]) (by norm_num [abs_of_pos])
      (by norm_num [roundNearestEven])]
    norm_num
  have e6 : roundBinary32 (140737485604139 / 34359738368) = 4096 := by
    rw [roundBinary32_eval _ (11) 16777216 (by norm_num [abs_of_pos]) (by norm_num [abs_of_pos])
      (by norm_num [roundNearestEven])]
    norm_num
  refine ⟨speedDouble_693, e0, ?_, by norm_num, ?_⟩
  · simp only [updateAngleWith, roundBinary32_literal_timeStep, roundBinary32_literal_002]
    norm_num [e1, e2, e3, e4, e5]
  · simp only [updateAngleWith, roundBinary32_literal_timeStep, roundBinary32_literal_002]
    norm_num [e1, e2, e3, e4, e6]

/-- C9 (amended): the per-frame update of a particle changes only its angle: radius,
colour, speed, position and core flag are the same after it, for every jitter sample and
every `rotationMultiplier`.  For every reachable `rotationMultiplier` the angle after the
update is not less than the angle before it whenever the sum `speed + jitter * 0.02` that
the update computes is non-negative, and so for every non-negative jitter sample on a
particle of non-negative speed; every particle the generator produces has positive speed.
The first two parts state this in exact arithmetic, for the loop body `starStep` and the
generated population; the last two under binary32 rounding, for line 175 with every
operation rounded and the stored angle a `float`, and for the speed line 121 assigns with
either overload of `sqrt`. -/
theorem starStep_changes_only_angle (K : Type) [LinearOrderedField K] [FloorRing K] :
    (∀ (m : LibM K) (s : Star K) (n rot cx cy : K),
      (starStep m s n rot cx cy).1.radius = s.radius ∧
      (starStep m s n rot cx cy).1.color = s.color ∧
      (starStep m s n rot cx cy).1.speed = s.speed ∧
      (starStep m s n rot cx cy).1.x = s.x ∧
      (starStep m s n rot cx cy).1.y = s.y ∧
      (starStep m s n rot cx cy).1.z = s.z ∧
      (starStep m s n rot cx cy).1.isCore = s.isCore ∧
      (Reachable rot → 0 ≤ s.speed + n * 0.02 →
        s.angle ≤ (starStep m s n rot cx cy).1.angle)) ∧
    (∀ (m : LibM K) (g : Rng K), (∀ i, 0 ≤ g.U i ∧ g.U i < 1) →
      (∀ v : K, 0 ≤ v → 0 ≤ m.sqrt v) →
      ∀ s ∈ (generate m g).1, 0 < s.speed ∧
        ∀ n rot cx cy : K, Reachable rot → 0 ≤ n →
          s.angle ≤ (starStep m s n rot cx cy).1.angle) ∧
    (∀ (s : Star ℚ) (n rot : ℚ),
      (updateAngleWith roundBinary32 s n rot).radius = s.radius ∧
      (updateAngleWith roundBinary32 s n rot).color = s.color ∧
      (updateAngleWith roundBinary32 s n rot).speed = s.speed ∧
      (updateAngleWith roundBinary32 s n rot).x = s.x ∧
      (updateAngleWith roundBinary32 s n rot).y = s.y ∧
      (updateAngleWith roundBinary32 s n rot).z = s.z ∧
      (updateAngleWith roundBinary32 s n rot).isCore = s.isCore ∧
      (ReachableWith roundBinary32 rot → roundBinary32 s.angle = s.angle →
        0 ≤ roundBinary32 (s.speed + roundBinary32 (n * roundBinary32 0.02)) →
        s.angle ≤ (updateAngleWith roundBinary32 s n rot).angle) ∧
      (ReachableWith roundBinary32 rot → roundBinary32 s.angle = s.angle →
        0 ≤ s.speed → 0 ≤ n →
        s.angle ≤ (updateAngleWith roundBinary32 s n rot).angle)) ∧
    (∀ r : ℚ, 0 < orbitalSpeedWith roundBinary32 roundBinary32 (sqrtRound 23) r ∧
      0 < orbitalSpeedWith roundBinary32 roundBinary64 (sqrtRound 52) r) := by
  refine ⟨?_, ?_, ?_, ?_⟩
  · intro m s n rot cx cy
    exact ⟨rfl, rfl, rfl, rfl, rfl, rfl, rfl, fun hr hj => starStep_angle_le m s n rot cx cy hr hj⟩
  · intro m g hU hs s hmem
    have hpos := generate_speed_pos m g hU hs s hmem
    refine ⟨hpos, fun n rot cx cy hr hn => starStep_angle_le m s n rot cx cy hr ?_⟩
    have : (0 : K) ≤ n * 0.02 := mul_nonneg hn (by norm_num)
    linarith
  · intro s n rot
    have hle : ReachableWith roundBinary32 rot → roundBinary32 s.angle = s.angle →
        0 ≤ roundBinary32 (s.speed + roundBinary32 (n * roundBinary32 0.02)) →
        s.angle ≤ (updateAngleWith roundBinary32 s n rot).angle :=
      fun hr hs hj => updateAngleWith_angle_le roundBinary32 (fun _ _ h => roundBinary32_mono h)
        (fun _ h => roundBinary32_nonneg h) s n rot hs
        (reachableWith_nonneg roundBinary32 (fun _ h => roundBinary32_nonneg h) rot hr) hj
    exact ⟨rfl, rfl, rfl, rfl, rfl, rfl, rfl, hle, fun hr hs hsp hn =>
      hle hr hs (jitter_sum_nonneg roundBinary32 (fun _ h => roundBinary32_nonneg h) _ _ hsp hn)⟩
  · intro r
    exact ⟨orbitalSpeedWith_pos roundBinary32 roundBinary32 (sqrtRound 23)
        (fun _ h => roundBinary32_pos h) (fun _ h => roundBinary32_pos h) r
        (sqrtRound_nonneg 23 r),
      orbitalSpeedWith_pos roundBinary32 roundBinary64 (sqrtRound 52)
        (fun _ h => roundBinary32_pos h) (fun _ h => roundBinary64_pos h) r
        (sqrtRound_nonneg 52 r)⟩

/-! ## Instantiation with the real library functions

The statements below take `K = ℝ` and the real `sqrt`, `sin`, `cos`, `atan2`, `log`,
`pow`, `exp` and absolute value for `LibM`. -/

theorem corePart_real_radius (lg ex ab : ℝ → ℝ) (at2 pw : ℝ → ℝ → ℝ) (g : Rng ℝ)
    (h2 : g.N (g.ni + 1) = 0) :
    (corePart (LibM.mk Real.sqrt Real.sin Real.cos at2 lg pw ex ab) g).1.2.2.2.1
      = |g.N g.ni| * 99 := by
  simp only [corePart, Rng.nextN, h2, CORE_SIZE]
  have h : ∀ a x : ℝ,
      (x * Real.cos a - 0 * 55.0 * 0.6 * Real.sin a) *
          (x * Real.cos a - 0 * 55.0 * 0.6 * Real.sin a) +
        (x * Real.sin a + 0 * 55.0 * 0.6 * Real.cos a) *
          (x * Real.sin a + 0 * 55.0 * 0.6 * Real.cos a) = x ^ 2 := by
    intro a x
    have := Real.sin_sq_add_cos_sq a
    nlinarith
  rw [h, Real.sqrt_sq_eq_abs]
  rw [show g.N g.ni * 55.0 * 1.8 = g.N g.ni * 99 by norm_num; ring]
  rw [abs_mul]
  norm_num

/-- C10: for all colours `a`, `b` with channels in `0..255` and every `t` with
`0 ≤ t ≤ 1`, each of the four channel values `a.c + (b.c - a.c) * t` computed by `lerp`
lies between `min a.c b.c` and `max a.c b.c`, hence in `0..255`, and its narrowing to
eight bits is the plain truncation (no wrap).  For some `t` outside `[0,1]` the value
leaves `0..255`: the generator, fed the draws `U = 0.1` and `N = 2, 0, 0`, produces a core
particle of radius `198 > CORE_SIZE`, whose colour is the blend with factor
`radius / CORE_SIZE = 3.6`, and the blue channel value of that blend is below `0`. -/
theorem lerp_channels_in_range (K : Type) [LinearOrderedField K] [FloorRing K] :
    (∀ (a b : Color) (t : K), a.valid → b.valid → 0 ≤ t → t ≤ 1 →
      channelInRange a.r b.r t ∧ channelInRange a.g b.g t ∧
      channelInRange a.b b.b t ∧ channelInRange a.a b.a t) ∧
    (∃ s ∈ (generate (LibM.mk Real.sqrt Real.sin Real.cos (fun y x => Complex.arg ⟨x, y⟩) Real.log
        (fun a b => a ^ b) Real.exp (fun v => |v|)) ⟨fun _ => 1 / 10, fun i => if i = 0 then 2 else 0, 0, 0⟩).1,
      s.isCore = true ∧ CORE_SIZE < s.radius ∧
      ¬ (0 ≤ s.radius / CORE_SIZE ∧ s.radius / CORE_SIZE ≤ 1) ∧
      s.color = lerp ⟨255, 255, 245, 230⟩ ⟨255, 200, 160, 210⟩ (s.radius / CORE_SIZE) ∧
      lerpChannel (Color.mk 255 255 245 230).b (Color.mk 255 200 160 210).b
        (s.radius / CORE_SIZE) < 0 ∧
      ¬ channelInRange (Color.mk 255 255 245 230).b (Color.mk 255 200 160 210).b
        (s.radius / CORE_SIZE)) := by
  constructor
  · intro a b t ha hb h0 h1
    obtain ⟨ar, ag, ab, aa⟩ := ha
    obtain ⟨br, bg, bb, ba⟩ := hb
    exact ⟨channelInRange_of_unit _ _ t ar br h0 h1, channelInRange_of_unit _ _ t ag bg h0 h1,
      channelInRange_of_unit _ _ t ab bb h0 h1, channelInRange_of_unit _ _ t aa ba h0 h1⟩
  · obtain ⟨s, hs, hcore, hrad, _, hcol⟩ := genCandidate_core (LibM.mk Real.sqrt Real.sin Real.cos (fun y x => Complex.arg ⟨x, y⟩) Real.log
        (fun a b => a ^ b) Real.exp (fun v => |v|))
      ⟨fun _ => 1 / 10, fun i => if i = 0 then 2 else 0, 0, 0⟩ (by norm_num)
    have hmem := generate_first _ _ s hs
    rw [corePart_real_radius _ _ _ _ _ _ (by norm_num)] at hrad
    have hr : s.radius = 198 := by
      rw [hrad]
      norm_num
    have hval : lerpChannel (Color.mk 255 255 245 230).b (Color.mk 255 200 160 210).b
        (s.radius / CORE_SIZE) < 0 := by
      rw [hr]
      norm_num [CORE_SIZE, lerpChannel]
    refine ⟨s, hmem, hcore, ?_, ?_, hcol, hval, ?_⟩
    · rw [hr]
      norm_num [CORE_SIZE]
    · rw [hr]
      norm_num [CORE_SIZE]
    · intro h
      exact absurd h.2.2.1 (not_le.mpr hval)

/-- Instance: the blend of `warm` and `blue` (line 108) at `t = 0.35`. -/
theorem lerp_channels_in_range_witness :
    channelInRange 245 205 (7 / 20 : ℚ) ∧ channelInRange 240 215 (7 / 20 : ℚ) ∧
      channelInRange 235 255 (7 / 20 : ℚ) ∧ channelInRange 255 255 (7 / 20 : ℚ) :=
  (lerp_channels_in_range ℚ).1 ⟨245, 240, 235, 255⟩ ⟨205, 215, 255, 255⟩ (7 / 20)
    (by decide) (by decide) (by norm_num) (by norm_num)

/-- Instance: the real library functions and the draws `U = 0.5, 0, 0, ...`, `N = 0`; the
first candidate is a retained disk particle. -/
theorem generate_radius_bounds_witness :
    ∃ s ∈ (generate (LibM.mk Real.sqrt Real.sin Real.cos (fun y x => Complex.arg ⟨x, y⟩) Real.log
        (fun a b => a ^ b) Real.exp (fun v => |v|)) ⟨fun i => if i = 0 then 1 / 2 else 0, fun _ => 0, 0, 0⟩).1,
      s.isCore = false ∧ 10 ≤ s.radius ∧ s.radius < GALAXY_SIZE + 10 := by
  obtain ⟨s, hs, hcore⟩ := genCandidate_disk_retained (LibM.mk Real.sqrt Real.sin Real.cos (fun y x => Complex.arg ⟨x, y⟩) Real.log
        (fun a b => a ^ b) Real.exp (fun v => |v|))
    ⟨fun i => if i = 0 then 1 / 2 else 0, fun _ => 0, 0, 0⟩ (by norm_num) (by norm_num)
  have hmem := generate_first _ _ s hs
  have hb := generate_radius_bounds (LibM.mk Real.sqrt Real.sin Real.cos (fun y x => Complex.arg ⟨x, y⟩) Real.log
        (fun a b => a ^ b) Real.exp (fun v => |v|))
    ⟨fun i => if i = 0 then 1 / 2 else 0, fun _ => 0, 0, 0⟩
    (by intro i; dsimp only; split_ifs <;> norm_num) (fun v _ => Real.sqrt_nonneg v) s hmem
  exact ⟨s, hmem, hcore, hb.1 hcore⟩

/-- C9 (counterexample): the generator, fed the draws `U = 0.1` (a core particle) and
`N = 7, 0, 0`, produces a particle of radius 693 and speed `3.5 / (sqrt 693 + 0.6)`, which
is below `0.14`; with the jitter sample `-7` and the initial `rotationMultiplier = 1` the
per-frame update makes its angle strictly smaller. -/
theorem angle_can_decrease :
    ∃ s ∈ (generate (LibM.mk Real.sqrt Real.sin Real.cos (fun y x => Complex.arg ⟨x, y⟩) Real.log
        (fun a b => a ^ b) Real.exp (fun v => |v|)) ⟨fun _ => 1 / 10, fun i => if i = 0 then 7 else 0, 0, 0⟩).1,
      Reachable (1 : ℝ) ∧ (starStep (LibM.mk Real.sqrt Real.sin Real.cos (fun y x => Complex.arg ⟨x, y⟩) Real.log
        (fun a b => a ^ b) Real.exp (fun v => |v|)) s (-7) 1 300 300).1.angle < s.angle := by
  obtain ⟨s, hs, _, hrad, hspeed, _⟩ := genCandidate_core (LibM.mk Real.sqrt Real.sin Real.cos (fun y x => Complex.arg ⟨x, y⟩) Real.log
        (fun a b => a ^ b) Real.exp (fun v => |v|))
    ⟨fun _ => 1 / 10, fun i => if i = 0 then 7 else 0, 0, 0⟩ (by norm_num)
  have hmem := generate_first _ _ s hs
  refine ⟨s, hmem, ⟨[], by norm_num [List.foldl]⟩, ?_⟩
  rw [corePart_real_radius _ _ _ _ _ _ (by norm_num)] at hrad
  have hr : s.radius = 693 := by
    rw [hrad]
    norm_num
  have hsq : (26 : ℝ) < Real.sqrt 693 := by
    rw [Real.lt_sqrt (by norm_num)]
    norm_num
  have hsp : s.speed < 0.14 := by
    rw [hspeed, hr]
    show 3.5 / (Real.sqrt 693 + 0.6) < 0.14
    rw [div_lt_iff₀ (by positivity)]
    nlinarith
  rw [starStep_fields, updateAngle_angle]
  have hdt : (0 : ℝ) < TIME_STEP := by norm_num [TIME_STEP]
  have : (s.speed + -7 * 0.02) * TIME_STEP < 0 :=
    mul_neg_of_neg_of_pos (by linarith) hdt
  linarith

/-- Instance: the real square root at the radii 1 and 4, and the speeds under binary32
rounding at the radii 1 and 4. -/
theorem orbitalSpeed_nonincreasing_witness :
    orbitalSpeed (LibM.mk Real.sqrt Real.sin Real.cos (fun y x => Complex.arg ⟨x, y⟩)
        Real.log (fun a b => a ^ b) Real.exp (fun v => |v|)) 4
      < orbitalSpeed (LibM.mk Real.sqrt Real.sin Real.cos (fun y x => Complex.arg ⟨x, y⟩)
        Real.log (fun a b => a ^ b) Real.exp (fun v => |v|)) 1 ∧
    orbitalSpeedWith roundBinary32 roundBinary32 (sqrtRound 23) 4
      ≤ orbitalSpeedWith roundBinary32 roundBinary32 (sqrtRound 23) 1 ∧
    orbitalSpeedWith roundBinary32 roundBinary64 (sqrtRound 52) 4
      ≤ orbitalSpeedWith roundBinary32 roundBinary64 (sqrtRound 52) 1 :=
  ⟨(orbitalSpeed_nonincreasing ℝ).1 _ (fun v _ => Real.sqrt_nonneg v)
      (fun _ _ ha hab => Real.sqrt_lt_sqrt ha hab) 1 4 (by norm_num) (by norm_num),
    (orbitalSpeed_nonincreasing ℝ).2 1 4 (by norm_num) (by norm_num)⟩

/-- Instance: in exact arithmetic a particle of speed `1/3`, jitter sample 1 and
`rotationMultiplier = 1.2` (reached by one "increase speed" press); under binary32
rounding a particle of angle 4096 and speed `35 / 16`, jitter sample 1 and
`rotationMultiplier = 5033165 / 4194304` (the `float` reached by one "increase speed"
press). -/
theorem starStep_changes_only_angle_witness :
    (Star.mk 100 0 0 100 0 (1 / 3) ⟨255, 255, 255, 255⟩ false : Star ℝ).angle ≤
        (starStep (LibM.mk Real.sqrt Real.sin Real.cos (fun y x => Complex.arg ⟨x, y⟩) Real.log
        (fun a b => a ^ b) Real.exp (fun v => |v|)) (Star.mk 100 0 0 100 0 (1 / 3) ⟨255, 255, 255, 255⟩ false)
          1 1.2 300 300).1.angle ∧
    (Star.mk 100 0 0 100 4096 (35 / 16) ⟨255, 255, 255, 255⟩ false : Star ℚ).angle ≤
        (updateAngleWith roundBinary32
          (Star.mk 100 0 0 100 4096 (35 / 16) ⟨255, 255, 255, 255⟩ false)
          1 (5033165 / 4194304)).angle :=
  ⟨((starStep_changes_only_angle ℝ).1 (LibM.mk Real.sqrt Real.sin Real.cos (fun y x => Complex.arg ⟨x, y⟩) Real.log
        (fun a b => a ^ b) Real.exp (fun v => |v|)) (Star.mk 100 0 0 100 0 (1 / 3) ⟨255, 255, 255, 255⟩ false)
      1 1.2 300 300).2.2.2.2.2.2.2
      ⟨[Event.KeyPressed Key.Add], by norm_num [List.foldl, handleKey, handleKeyWith]⟩
      (by norm_num),
    ((starStep_changes_only_angle ℝ).2.2.1
      (Star.mk 100 0 0 100 4096 (35 / 16) ⟨255, 255, 255, 255⟩ false) 1
      (5033165 / 4194304)).2.2.2.2.2.2.2.1 reachableWith_one_press roundBinary32_4096
      (jitter_sum_nonneg roundBinary32 (fun _ h => roundBinary32_nonneg h) _ _
        (by norm_num) (by norm_num))⟩

end GalaxySim
